import Mathlib

/-!
Verification development for the Local-NotebookLM core subsystems:
the word-bounded chunker (`steps/step1.py`), the flexible transcript
parsing cascade and overlap continuation engine (`steps/step3.py`),
the background job engine (`pipeline_runner.py`) and the pipeline
worker (`web_ui.py`).  Python strings are embedded as `List Char`
(named `Str`) so that all definitions are executable and decidable.
-/

set_option maxRecDepth 6000
set_option maxHeartbeats 1000000

/-- Characters of a Python string; the shallow embedding of `str`. -/
abbrev Str := List Char

/-- Conversion from a Lean string literal into the embedding. -/
def lit (s : String) : Str := s.data

/-- Accumulator pass of `pySplitWs`; `cur` holds the current word reversed. -/
def splitWsAux : Str → Str → List Str
  | [], cur => if cur.isEmpty then [] else [cur.reverse]
  | c :: rest, cur =>
    if c.isWhitespace then
      if cur.isEmpty then splitWsAux rest []
      else cur.reverse :: splitWsAux rest []
    else splitWsAux rest (c :: cur)

/-- Models Python `str.split()` with no argument: split on runs of
whitespace, never returning empty pieces. -/
def pySplitWs (s : Str) : List Str := splitWsAux s []

/-- Models Python `' '.join(chunks)`. -/
def joinSp : List Str → Str
  | [] => []
  | [w] => w
  | w :: x :: xs => w ++ ' ' :: joinSp (x :: xs)

/-- Loop of `create_word_bounded_chunks` (step1.py lines 27-38): walk the
words, closing the current chunk when adding the next word would push
`current_length` past the target and the chunk is non-empty. -/
def cwbcLoop (target : Nat) : List Str → List Str → Nat → List Str
  | [], cur, _ => if cur.isEmpty then [] else [joinSp cur]
  | w :: ws, cur, len =>
    let wl := w.length + 1
    if target < len + wl ∧ ¬cur.isEmpty then
      joinSp cur :: cwbcLoop target ws [w] wl
    else
      cwbcLoop target ws (cur ++ [w]) (len + wl)

/-- Models `create_word_bounded_chunks(text, target_chunk_size)` from
step1.py: greedy word-bounded bin packing of `text.split()`. -/
def create_word_bounded_chunks (text : Str) (target_chunk_size : Nat) : List Str :=
  cwbcLoop target_chunk_size (pySplitWs text) [] 0

/-- Goodness predicate for a word produced by `pySplitWs`: non-empty and
free of whitespace characters. -/
def GoodWord (w : Str) : Prop := w ≠ [] ∧ ∀ c ∈ w, c.isWhitespace = false

theorem splitWsAux_good (s : Str) :
    ∀ cur, (∀ c ∈ cur, c.isWhitespace = false) →
      ∀ w ∈ splitWsAux s cur, GoodWord w := by
  induction s with
  | nil =>
    intro cur hcur w hw
    simp only [splitWsAux] at hw
    split at hw
    · simp at hw
    · rename_i hne
      simp only [List.mem_singleton] at hw
      subst hw
      refine ⟨?_, ?_⟩
      · simp only [List.isEmpty_iff] at hne
        simpa using hne
      · intro c hc
        exact hcur c (by simpa using hc)
  | cons c rest ih =>
    intro cur hcur w hw
    simp only [splitWsAux] at hw
    by_cases hws : c.isWhitespace
    · rw [if_pos hws] at hw
      split at hw
      · exact ih [] (by simp) w hw
      · rename_i hne
        rcases List.mem_cons.mp hw with h | h
        · subst h
          refine ⟨?_, ?_⟩
          · simp only [List.isEmpty_iff] at hne
            simpa using hne
          · intro x hx
            exact hcur x (by simpa using hx)
        · exact ih [] (by simp) w h
    · rw [if_neg hws] at hw
      refine ih (c :: cur) ?_ w hw
      intro x hx
      rcases List.mem_cons.mp hx with h | h
      · subst h; simpa using hws
      · exact hcur x h

theorem pySplitWs_good (s : Str) : ∀ w ∈ pySplitWs s, GoodWord w :=
  splitWsAux_good s [] (by simp)

theorem splitWsAux_append_space (b : Str) :
    ∀ (a : Str) (cur : Str),
      splitWsAux (a ++ ' ' :: b) cur = splitWsAux a cur ++ splitWsAux b [] := by
  intro a
  induction a with
  | nil =>
    intro cur
    simp only [List.nil_append, splitWsAux]
    have hws : (' ' : Char).isWhitespace = true := by decide
    rw [if_pos hws]
    by_cases h : cur.isEmpty
    · rw [if_pos h, if_pos h]; simp
    · rw [if_neg h, if_neg h]; simp
  | cons c rest ih =>
    intro cur
    simp only [List.cons_append, splitWsAux]
    by_cases hws : c.isWhitespace
    · rw [if_pos hws, if_pos hws]
      by_cases h : cur.isEmpty
      · rw [if_pos h, if_pos h]; exact ih []
      · rw [if_neg h, if_neg h]
        simp [ih []]
    · rw [if_neg hws, if_neg hws]
      exact ih (c :: cur)

theorem pySplitWs_append_space (a b : Str) :
    pySplitWs (a ++ ' ' :: b) = pySplitWs a ++ pySplitWs b :=
  splitWsAux_append_space b a []

theorem splitWsAux_all_nonwhite (w : Str) :
    ∀ cur, (∀ c ∈ w, c.isWhitespace = false) →
      splitWsAux w cur = splitWsAux [] (w.reverse ++ cur) := by
  induction w with
  | nil => intro cur _; simp
  | cons c rest ih =>
    intro cur hall
    have hc : c.isWhitespace = false := hall c (by simp)
    simp only [splitWsAux, hc]
    rw [if_neg (by simp [hc])]
    rw [ih (c :: cur) (fun x hx => hall x (List.mem_cons_of_mem c hx))]
    simp [splitWsAux, List.reverse_append]

theorem pySplitWs_good_word (w : Str) (hw : GoodWord w) : pySplitWs w = [w] := by
  obtain ⟨hne, hall⟩ := hw
  unfold pySplitWs
  rw [splitWsAux_all_nonwhite w [] hall]
  simp only [splitWsAux, List.append_nil]
  rw [if_neg (by simpa using hne)]
  simp

theorem joinSp_cons (x : Str) (l : List Str) (h : l ≠ []) :
    joinSp (x :: l) = x ++ ' ' :: joinSp l := by
  cases l with
  | nil => exact absurd rfl h
  | cons y ys => rfl

theorem pySplitWs_joinSp (l : List Str) (hl : ∀ w ∈ l, GoodWord w) :
    pySplitWs (joinSp l) = l := by
  induction l with
  | nil => simp [joinSp, pySplitWs, splitWsAux]
  | cons w ws ih =>
    cases ws with
    | nil =>
      simp only [joinSp]
      exact pySplitWs_good_word w (hl w (by simp))
    | cons x xs =>
      rw [joinSp_cons w (x :: xs) (by simp)]
      rw [pySplitWs_append_space]
      rw [pySplitWs_good_word w (hl w (by simp))]
      rw [ih (fun u hu => hl u (List.mem_cons_of_mem w hu))]
      simp

theorem cwbcLoop_ne_nil (t : Nat) :
    ∀ (ws : List Str) (cur : List Str) (len : Nat), cur ≠ [] →
      cwbcLoop t ws cur len ≠ [] := by
  intro ws
  induction ws with
  | nil =>
    intro cur len hcur
    simp only [cwbcLoop]
    rw [if_neg (by simpa using hcur)]
    simp
  | cons w ws ih =>
    intro cur len hcur
    simp only [cwbcLoop]
    split
    · simp
    · exact ih (cur ++ [w]) _ (by simp)

theorem cwbcLoop_words (t : Nat) :
    ∀ (ws : List Str) (cur : List Str) (len : Nat),
      (∀ w ∈ cur, GoodWord w) → (∀ w ∈ ws, GoodWord w) →
      pySplitWs (joinSp (cwbcLoop t ws cur len)) = cur ++ ws := by
  intro ws
  induction ws with
  | nil =>
    intro cur len hcur _
    simp only [cwbcLoop]
    by_cases h : cur.isEmpty
    · rw [if_pos h]
      simp only [List.isEmpty_iff] at h
      subst h
      simp [joinSp, pySplitWs, splitWsAux]
    · rw [if_neg h]
      simp only [joinSp, List.append_nil]
      exact pySplitWs_joinSp cur hcur
  | cons w ws ih =>
    intro cur len hcur hws
    have hw : GoodWord w := hws w (by simp)
    have hws2 : ∀ u ∈ ws, GoodWord u := fun u hu => hws u (List.mem_cons_of_mem w hu)
    simp only [cwbcLoop]
    split
    · rename_i hcond
      have hcur_ne : cur ≠ [] := by
        have := hcond.2
        simpa [List.isEmpty_iff] using this
      have hrest_ne : cwbcLoop t ws [w] (w.length + 1) ≠ [] :=
        cwbcLoop_ne_nil t ws [w] _ (by simp)
      rw [joinSp_cons _ _ hrest_ne]
      rw [pySplitWs_append_space]
      rw [pySplitWs_joinSp cur hcur]
      rw [ih [w] _ (by intro u hu; simp at hu; subst hu; exact hw) hws2]
      simp
    · rw [ih (cur ++ [w]) _ ?_ hws2]
      · simp
      · intro u hu
        rcases List.mem_append.mp hu with h | h
        · exact hcur u h
        · simp at h; subst h; exact hw

/-- Claim C3: joining the chunks with single spaces reproduces the word
sequence of the input exactly, and a text with no words yields no chunks. -/
theorem chunks_reassemble_words (T : Str) (S : Nat) (hS : 0 < S) :
    pySplitWs (joinSp (create_word_bounded_chunks T S)) = pySplitWs T ∧
    (pySplitWs T = [] → create_word_bounded_chunks T S = []) := by
  constructor
  · have := cwbcLoop_words S (pySplitWs T) [] 0 (by simp) (pySplitWs_good T)
    simpa [create_word_bounded_chunks] using this
  · intro h
    simp [create_word_bounded_chunks, h, cwbcLoop]

/-- Witness for C3 at the spec's concrete scenario input. -/
theorem chunks_reassemble_words_w :
    pySplitWs (joinSp (create_word_bounded_chunks (lit "one two three four five six") 10)) =
      pySplitWs (lit "one two three four five six") ∧
    (pySplitWs (lit "one two three four five six") = [] →
      create_word_bounded_chunks (lit "one two three four five six") 10 = []) :=
  chunks_reassemble_words (lit "one two three four five six") 10 (by decide)

/-- Weight tracked by the Python `current_length` variable: each word
contributes its length plus one. -/
def chunkWeight (cur : List Str) : Nat := (cur.map (fun w => w.length + 1)).sum

theorem joinSp_length (cur : List Str) (h : cur ≠ []) :
    (joinSp cur).length + 1 = chunkWeight cur := by
  induction cur with
  | nil => exact absurd rfl h
  | cons w ws ih =>
    cases ws with
    | nil => simp [joinSp, chunkWeight]
    | cons x xs =>
      rw [joinSp_cons w (x :: xs) (by simp)]
      have := ih (by simp)
      simp only [chunkWeight, List.map_cons, List.sum_cons] at *
      simp only [List.length_append, List.length_cons]
      omega

theorem emit_chunk_ok (t : Nat) (cur : List Str) (hne : cur ≠ [])
    (hcur : ∀ w ∈ cur, GoodWord w)
    (hbound : 2 ≤ cur.length → chunkWeight cur ≤ t) :
    (joinSp cur).length ≤ t ∨
      (pySplitWs (joinSp cur) = [joinSp cur] ∧ t < (joinSp cur).length) := by
  cases cur with
  | nil => exact absurd rfl hne
  | cons w ws =>
    cases ws with
    | nil =>
      simp only [joinSp]
      by_cases h : w.length ≤ t
      · exact Or.inl h
      · refine Or.inr ⟨pySplitWs_good_word w (hcur w (by simp)), by omega⟩
    | cons x xs =>
      left
      have hwt : chunkWeight (w :: x :: xs) ≤ t :=
        hbound (by simp only [List.length_cons]; omega)
      have hlen := joinSp_length (w :: x :: xs) (by simp)
      omega

theorem cwbcLoop_bound (t : Nat) :
    ∀ (ws : List Str) (cur : List Str) (len : Nat),
      (∀ w ∈ cur, GoodWord w) → (∀ w ∈ ws, GoodWord w) →
      len = chunkWeight cur → (2 ≤ cur.length → len ≤ t) →
      ∀ c ∈ cwbcLoop t ws cur len,
        c.length ≤ t ∨ (pySplitWs c = [c] ∧ t < c.length) := by
  intro ws
  induction ws with
  | nil =>
    intro cur len hcur _ hw2 hbound c hc
    simp only [cwbcLoop] at hc
    split at hc
    · simp at hc
    · rename_i hne
      simp only [List.mem_singleton] at hc
      subst hc
      have hcur_ne : cur ≠ [] := by simpa [List.isEmpty_iff] using hne
      exact emit_chunk_ok t cur hcur_ne hcur (fun h2 => hw2 ▸ hbound h2)
  | cons w ws ih =>
    intro cur len hcur hws hw2 hbound c hc
    have hw : GoodWord w := hws w (by simp)
    have hws2 : ∀ u ∈ ws, GoodWord u := fun u hu => hws u (List.mem_cons_of_mem w hu)
    simp only [cwbcLoop] at hc
    split at hc
    · rename_i hcond
      have hcur_ne : cur ≠ [] := by simpa [List.isEmpty_iff] using hcond.2
      rcases List.mem_cons.mp hc with h | h
      · subst h
        exact emit_chunk_ok t cur hcur_ne hcur (fun h2 => hw2 ▸ hbound h2)
      · refine ih [w] _ ?_ hws2 (by simp [chunkWeight]) (by simp) c h
        intro u hu; simp at hu; subst hu; exact hw
    · rename_i hcond
      rw [not_and_or] at hcond
      refine ih (cur ++ [w]) _ ?_ hws2 ?_ ?_ c hc
      · intro u hu
        rcases List.mem_append.mp hu with h | h
        · exact hcur u h
        · simp at h; subst h; exact hw
      · simp [chunkWeight, hw2]
      · intro _
        rcases hcond with h | h
        · omega
        · -- cur is empty, so cur ++ [w] has length 1; contradiction with 2 ≤ 1
          rw [not_not, List.isEmpty_iff] at h
          subst h
          simp_all
  
/-- Claim C7: every chunk fits in the target size, except that a single
oversized word is placed alone in its own chunk rather than split. -/
theorem chunk_size_bound (T : Str) (S : Nat) (hS : 0 < S) :
    ∀ c ∈ create_word_bounded_chunks T S,
      c.length ≤ S ∨ (pySplitWs c = [c] ∧ S < c.length) := by
  intro c hc
  exact cwbcLoop_bound S (pySplitWs T) [] 0 (by simp) (pySplitWs_good T)
    (by simp [chunkWeight]) (by simp) c hc

/-- Witness for C7: the first chunk of a concrete run satisfies the bound. -/
theorem chunk_size_bound_w :
    (lit "one two").length ≤ 10 ∨
      (pySplitWs (lit "one two") = [lit "one two"] ∧ 10 < (lit "one two").length) :=
  chunk_size_bound (lit "one two three") 10 (by decide) (lit "one two") (by decide)

/-- Progress fields of `PipelineJob` (pipeline_runner.py lines 18-40).
Thread handle, cancel event and lock are modelled separately; durations in
`step_times` are abstract naturals; `gen_start` stands for `time.time()`. -/
structure PipelineJob where
  status : String
  current_step : Nat
  total_steps : Nat
  step_label : String
  step_times : List Nat
  error : String
  failed_step : Option Nat
  log_text : String
  gen_start : Nat
  notebook_id : String
deriving DecidableEq

/-- Keyword arguments of `PipelineJob.update(**kwargs)`: a present option
models a keyword that names an existing attribute (the `hasattr` branch);
`unknown` models keywords naming no attribute, silently skipped. -/
structure UpdateArgs where
  status : Option String
  current_step : Option Nat
  total_steps : Option Nat
  step_label : Option String
  step_times : Option (List Nat)
  error : Option String
  failed_step : Option (Option Nat)
  log_text : Option String
  gen_start : Option Nat
  notebook_id : Option String
  unknown : List String

/-- Empty keyword-argument set. -/
def noArgs : UpdateArgs := ⟨none, none, none, none, none, none, none, none, none, none, []⟩

/-- Keyword set carrying only `status=s`, as in `cancel_job`. -/
def argsStatus (s : String) : UpdateArgs :=
  ⟨some s, none, none, none, none, none, none, none, none, none, []⟩

/-- Field assignment loop of `update` (pipeline_runner.py lines 60-62):
each present keyword overwrites the matching field; `unknown` is ignored. -/
def applyUpdate (j : PipelineJob) (a : UpdateArgs) : PipelineJob :=
  ⟨a.status.getD j.status, a.current_step.getD j.current_step,
   a.total_steps.getD j.total_steps, a.step_label.getD j.step_label,
   a.step_times.getD j.step_times, a.error.getD j.error,
   a.failed_step.getD j.failed_step, a.log_text.getD j.log_text,
   a.gen_start.getD j.gen_start, a.notebook_id.getD j.notebook_id⟩

/-- Fields written to `pipeline_state.json` by `_persist`
(pipeline_runner.py lines 67-77); note `log_text` is not persisted. -/
structure PersistedState where
  status : String
  current_step : Nat
  total_steps : Nat
  step_label : String
  step_times : List Nat
  error : String
  failed_step : Option Nat
  gen_start : Nat
  notebook_id : String

/-- State dictionary built by `_persist` from the current job fields. -/
def persistedOf (j : PipelineJob) : PersistedState :=
  ⟨j.status, j.current_step, j.total_steps, j.step_label, j.step_times,
   j.error, j.failed_step, j.gen_start, j.notebook_id⟩

/-- Models `PipelineJob.update` (pipeline_runner.py lines 57-63): set the
named fields, then best-effort persist.  `writeOk = false` models an
`OSError` from `_persist`, swallowed by its bare `except OSError: pass`;
the in-memory mutation is not rolled back. -/
def PipelineJob.update (j : PipelineJob) (a : UpdateArgs)
    (fs : Option PersistedState) (writeOk : Bool) :
    PipelineJob × Option PersistedState :=
  let j2 := applyUpdate j a
  (j2, if writeOk then some (persistedOf j2) else fs)

/-- Replaces the unknown-keyword list of an argument set. -/
def UpdateArgs.withUnknown (a : UpdateArgs) (ks : List String) : UpdateArgs :=
  ⟨a.status, a.current_step, a.total_steps, a.step_label, a.step_times,
   a.error, a.failed_step, a.log_text, a.gen_start, a.notebook_id, ks⟩

/-- Claim C10: `Job.update` is total at the public interface — unknown
keyword names are silently ignored (the in-memory result does not depend
on them), and a failed `pipeline_state.json` write is swallowed, leaving
the file untouched but keeping the in-memory field changes. -/
theorem update_total_no_rollback (j : PipelineJob) (a : UpdateArgs)
    (ks : List String) (fs : Option PersistedState) (writeOk : Bool) :
    (PipelineJob.update j (a.withUnknown ks) fs writeOk).1 = applyUpdate j a ∧
    (PipelineJob.update j a fs false).2 = fs := by
  cases a
  exact ⟨rfl, rfl⟩

/-- Job in a terminal `completed` state, used as a concrete input. -/
def jobCompleted : PipelineJob := ⟨"completed", 3, 5, "done", [1, 1], "", none, "", 0, "nb1"⟩

/-- Claim C1 counterexample: `update` has no terminal-status guard, so a
call passing `status="running"` moves a completed job back to `running`. -/
theorem update_terminal_to_running_cex :
    jobCompleted.status = "completed" ∧
    ((PipelineJob.update jobCompleted (argsStatus "running") none true).1).status = "running" :=
  ⟨rfl, rfl⟩

/-- Claim C1 amended: a terminal status survives every `update` call that
does not explicitly pass `status="running"`; the one-way property is a
caller convention, not enforced inside `update`. -/
theorem update_preserves_terminal_unless_running (j : PipelineJob) (a : UpdateArgs)
    (fs : Option PersistedState) (w : Bool)
    (hterm : j.status = "completed" ∨ j.status = "failed" ∨ j.status = "cancelled")
    (hns : a.status ≠ some "running") :
    ((PipelineJob.update j a fs w).1).status ≠ "running" := by
  cases ha : a.status with
  | none =>
    simp only [PipelineJob.update, applyUpdate, ha, Option.getD_none]
    rcases hterm with h | h | h <;> simp [h]
  | some s =>
    simp only [PipelineJob.update, applyUpdate, ha, Option.getD_some]
    intro hc
    exact hns (by rw [ha, hc])

/-- Witness for the amended C1 at a concrete terminal job and empty kwargs. -/
theorem update_preserves_terminal_unless_running_w :
    ((PipelineJob.update jobCompleted noArgs none true).1).status ≠ "running" :=
  update_preserves_terminal_unless_running jobCompleted noArgs none true
    (Or.inl rfl) (by simp [noArgs])

/-- Atomic observable action of `_pipeline_worker` (web_ui.py lines
2118-2348): set the step total, start a step (increment the local
`current_step` and update label), finish a step (append a duration and
update `step_times`), check `cancel_event`, record success, or fail —
the in-flight step raised (except handler, lines 2326-2348) or a
`skip_to` branch found no prior outputs (lines 2172, 2209); both write
`status="failed"` with `failed_step` and return, with no cancel guard. -/
inductive WAct where
  | setTotal : Nat → WAct
  | stepStart : String → WAct
  | stepEnd : WAct
  | check : WAct
  | finish : WAct
  | stepFail : WAct

/-- Worker-side state: the shared job record, the state file, and the
worker's local `current_step` counter and `step_times` list. -/
structure WState where
  job : PipelineJob
  fs : Option PersistedState
  cs : Nat
  times : List Nat

/-- Keyword set of a step-start update. -/
def argsStartStep (n : Nat) (lbl : String) : UpdateArgs :=
  ⟨none, some n, none, some lbl, none, none, none, none, none, none, []⟩

/-- Keyword set of a step-times update. -/
def argsTimes (ts : List Nat) : UpdateArgs :=
  ⟨none, none, none, none, some ts, none, none, none, none, none, []⟩

/-- Keyword set of the initial total-steps update. -/
def argsTotal (n : Nat) : UpdateArgs :=
  ⟨none, none, some n, none, none, none, none, none, none, none, []⟩

/-- Keyword set of a terminal update carrying captured log text, as in
`job.update(status=..., log_text=capture.get_text())`. -/
def argsStatusLog (s : String) : UpdateArgs :=
  ⟨some s, none, none, none, none, none, none, some "log", none, none, []⟩

/-- Keyword set of a failure update, as in `job.update(status="failed",
error=..., failed_step=current_step, log_text=...)` (web_ui.py lines
2172-2173, 2209-2210, 2343-2348). -/
def argsFailed (cs : Nat) : UpdateArgs :=
  ⟨some "failed", none, none, none, none, some "err", some (some cs), some "log",
   none, none, []⟩

/-- Runs one locked `job.update` from the worker, with the write assumed
to succeed. -/
def doUpdate (s : WState) (a : UpdateArgs) : WState :=
  let r := PipelineJob.update s.job a s.fs true
  ⟨r.1, r.2, s.cs, s.times⟩

/-- Executes one worker action; the returned flag is true when the
worker returns early — at a cancellation check that observed a set
cancel event, or at a failure update, which happens regardless of the
cancel event. -/
def execAct (flag : Bool) (s : WState) : WAct → (WState × Bool)
  | .setTotal n => (doUpdate s (argsTotal n), false)
  | .stepStart lbl =>
    let s2 : WState := ⟨s.job, s.fs, s.cs + 1, s.times⟩
    (doUpdate s2 (argsStartStep s2.cs lbl), false)
  | .stepEnd =>
    let s2 : WState := ⟨s.job, s.fs, s.cs, s.times ++ [1]⟩
    (doUpdate s2 (argsTimes s2.times), false)
  | .check =>
    if flag then (doUpdate s (argsStatusLog "cancelled"), true) else (s, false)
  | .finish => (doUpdate s (argsStatusLog "completed"), false)
  | .stepFail => (doUpdate s (argsFailed s.cs), true)

/-- Runs worker actions in order, stopping at a cancellation check that
fires or at a failure; returns the trace of intermediate states and the
final state. -/
def runActs (flag : Bool) : List WAct → WState → (List WState × WState)
  | [], s => ([], s)
  | a :: rest, s =>
    let r := execAct flag s a
    if r.2 then ([r.1], r.1)
    else
      let rr := runActs flag rest r.1
      (r.1 :: rr.1, rr.2)

/-- Ordered action sequence of a failure-free `_pipeline_worker` run,
parameterised by which outputs were requested (web_ui.py lines 2112-2324):
step 1 always runs and is followed by a cancel check; steps 2-4 run when
audio is wanted, each followed by a check; step 5 runs when an infographic
is wanted, with no check after it (its own exceptions are caught locally
at lines 2275-2286 and are non-fatal); then success is recorded.  Runs in
which a step fails are built by `workerActsF`. -/
def workerActs (wantAudio wantInfo : Bool) : List WAct :=
  [.setTotal (1 + (if wantAudio then 3 else 0) + (if wantInfo then 1 else 0)),
   .stepStart "Extracting text from document...", .stepEnd, .check]
  ++ (if wantAudio then
      [.stepStart "Generating transcript...", .stepEnd, .check,
       .stepStart "Optimizing for text-to-speech...", .stepEnd, .check,
       .stepStart "Generating audio...", .stepEnd, .check] else [])
  ++ (if wantInfo then [.stepStart "Generating infographic...", .stepEnd] else [])
  ++ [.finish]

/-- Job record as created by `start_job` from the dataclass defaults
(pipeline_runner.py lines 29-37, 103). -/
def initialJob : PipelineJob := ⟨"running", 0, 0, "", [], "", none, "", 0, "nb1"⟩

/-- Worker state at thread start. -/
def initWState : WState := ⟨initialJob, none, 0, []⟩

/-- Models `cancel_job` (pipeline_runner.py lines 131-135): the cancel
event is set (handled by the caller via the flag) and the job status is
updated to `cancelled`. -/
def cancelUpd (s : WState) : WState := doUpdate s (argsStatus "cancelled")

/-- Job-state trace of one worker run: the initial record followed by the
state after every update.  `cancelAt = some k` injects `cancel_job`
immediately before the worker's k-th action; actions before it run with
the cancel event clear, actions after it with the event set. -/
def fullTrace (a g : Bool) (cancelAt : Option Nat) : List PipelineJob :=
  let acts := workerActs a g
  match cancelAt with
  | none =>
    let r := runActs false acts initWState
    initialJob :: r.1.map WState.job
  | some k =>
    let r1 := runActs false (acts.take k) initWState
    let s2 := cancelUpd r1.2
    let r2 := runActs true (acts.drop k) s2
    initialJob :: r1.1.map WState.job ++ s2.job :: r2.1.map WState.job

/-- Number of fallible pipeline stages: steps 1-4 when audio is wanted,
only step 1 otherwise.  A body exception there reaches the worker's
except handler (web_ui.py lines 2326-2348), and the `skip_to` branches of
steps 1-2 can fail the job directly (lines 2172, 2209); step 5 failures
are caught locally and are non-fatal. -/
def fallibleSteps (a : Bool) : Nat := if a then 4 else 1

/-- Action sequence of a `_pipeline_worker` run in which the body of the
`fail`-th executed step raises (or its `skip_to` branch finds no files):
the run proceeds through that step's start update — the start update of
step `i` sits at index `3 * i - 2`, so the first `3 * i - 1` actions are
kept — and then performs the unguarded failure update and returns. -/
def workerActsF (a g : Bool) (fail : Option Nat) : List WAct :=
  match fail with
  | none => workerActs a g
  | some i => (workerActs a g).take (3 * i - 1) ++ [WAct.stepFail]

/-- Job-state trace of one worker run with an optional step failure and
an optional `cancel_job` injected immediately before the worker's k-th
action, as in `fullTrace`. -/
def fullTraceF (a g : Bool) (fail cancelAt : Option Nat) : List PipelineJob :=
  let acts := workerActsF a g fail
  match cancelAt with
  | none =>
    let r := runActs false acts initWState
    initialJob :: r.1.map WState.job
  | some k =>
    let r1 := runActs false (acts.take k) initWState
    let s2 := cancelUpd r1.2
    let r2 := runActs true (acts.drop k) s2
    initialJob :: r1.1.map WState.job ++ s2.job :: r2.1.map WState.job

/-- Claim C8 counterexample: immediately after creation the job has
`current_step = 0` and empty `step_times`, so `len(step_times) ==
current_step - 1` fails (0 is not -1); the freshly created record is the
head of every worker trace. -/
theorem invariant_initial_cex :
    (fullTrace true false none).head? = some initialJob ∧
    ((initialJob.step_times.length : Int) ≠ (initialJob.current_step : Int) - 1) :=
  ⟨rfl, by decide⟩

/-- Monotonicity check: `current_step` never decreases between adjacent
trace states. -/
def monoStepsB : List PipelineJob → Bool
  | x :: y :: rest => decide (x.current_step ≤ y.current_step) && monoStepsB (y :: rest)
  | _ => true

/-- Claim C8 amended: along every worker trace — with or without a
cancellation at any point — `len(step_times)` always equals either
`current_step` or `current_step - 1` (it is `current_step - 1` between a
step-start update and that step's completion, and `current_step` after
creation and after each step-completion update), and `current_step` never
decreases from one trace state to the next. -/
theorem step_times_tracks_current_step (a g : Bool) (co : Option Nat) :
    (∀ j ∈ fullTrace a g co,
      j.step_times.length ≤ j.current_step ∧
      j.current_step ≤ j.step_times.length + 1) ∧
    monoStepsB (fullTrace a g co) = true := by
  match co with
  | none =>
    cases a <;> cases g <;> exact (by decide)
  | some k =>
    rcases Nat.lt_or_ge k 17 with hk | hk
    · have key : ∀ k, k < 17 →
          (∀ j ∈ fullTrace a g (some k),
            j.step_times.length ≤ j.current_step ∧
            j.current_step ≤ j.step_times.length + 1) ∧
          monoStepsB (fullTrace a g (some k)) = true := by
        cases a <;> cases g <;> exact (by decide)
      exact key k hk
    · have hlen : (workerActs a g).length ≤ 16 := by
        cases a <;> cases g <;> decide
      have h1 : (workerActs a g).take k = workerActs a g :=
        List.take_of_length_le (hlen.trans (by omega))
      have h2 : (workerActs a g).drop k = [] :=
        List.drop_eq_nil_of_le (hlen.trans (by omega))
      have h3 : (workerActs a g).take 16 = workerActs a g :=
        List.take_of_length_le hlen
      have h4 : (workerActs a g).drop 16 = [] :=
        List.drop_eq_nil_of_le hlen
      have hsat : fullTrace a g (some k) = fullTrace a g (some 16) := by
        simp only [fullTrace, h1, h2, h3, h4]
      rw [hsat]
      cases a <;> cases g <;> exact (by decide)

/-- Witness for the amended C8: the freshly created job, a member of a
concrete trace, satisfies the corrected invariant. -/
theorem step_times_tracks_current_step_w :
    initialJob.step_times.length ≤ initialJob.current_step ∧
    initialJob.current_step ≤ initialJob.step_times.length + 1 :=
  (step_times_tracks_current_step true false none).1 initialJob (by decide)

/-- Claim C4 counterexample: with audio requested and no infographic, a
cancellation arriving after the worker's last cancel check (action index
13, just before the success update) flips the job to `cancelled`, yet the
worker then records `completed` — the status does not stay `cancelled`. -/
theorem worker_cancel_overridden_cex :
    "cancelled" ∈ (fullTrace true false (some 13)).map PipelineJob.status ∧
    ((fullTrace true false (some 13)).map PipelineJob.status).getLast? =
      some "completed" := by
  exact ⟨by decide, by decide⟩

/-- Index of the last `cancel_event` check in `workerActs`: after step 4
when audio is requested, otherwise after step 1; the infographic step has
no check after it. -/
def lastCheckIdx (a : Bool) : Nat := if a then 12 else 3

/-- Suffix of a trace from the first `cancelled` state onward. -/
def afterCancel (tr : List PipelineJob) : List PipelineJob :=
  tr.dropWhile (fun j => j.status != "cancelled")

/-- Number of adjacent trace states whose `step_label` or `current_step`
differ. -/
def stepChanges : List PipelineJob → Nat
  | x :: y :: rest =>
    (if x.step_label = y.step_label ∧ x.current_step = y.current_step then 0 else 1) +
      stepChanges (y :: rest)
  | _ => 0

/-- Claim C4 amended: when the cancellation arrives at or before the
worker's last cancel check and every action the worker still performs is
failure-free, the worker stops at the next check: every trace state from
the `cancelled` flip onward keeps status `cancelled`, at most one further
update changes `step_label`/`current_step` (the one step already in
flight), and the final status is `cancelled`.  The cancelled status is
not final in general, though: if the step in flight at cancellation time
fails — its body raises, or its `skip_to` branch finds no files — the
unguarded failure update overwrites `cancelled` with `failed`, even for
a cancellation well before the last check; and a cancellation arriving
after the last check is overwritten by `completed` (counterexample). -/
theorem cancel_before_last_check_stops (a g : Bool) (k : Nat)
    (hk : k ≤ lastCheckIdx a) :
    ((∀ j ∈ afterCancel (fullTraceF a g none (some k)), j.status = "cancelled") ∧
      stepChanges (afterCancel (fullTraceF a g none (some k))) ≤ 1 ∧
      ((fullTraceF a g none (some k)).map PipelineJob.status).getLast? =
        some "cancelled") ∧
    (∀ i, 1 ≤ i → i ≤ fallibleSteps a →
      3 * i - 1 ≤ lastCheckIdx a ∧
      "cancelled" ∈ (fullTraceF a g (some i) (some (3 * i - 1))).map PipelineJob.status ∧
      ((fullTraceF a g (some i) (some (3 * i - 1))).map PipelineJob.status).getLast? =
        some "failed") := by
  have hk2 : k < 13 := by
    have hle : lastCheckIdx a ≤ 12 := by cases a <;> simp [lastCheckIdx]
    omega
  constructor
  · have key : ∀ k, k < 13 → k ≤ lastCheckIdx a →
        (∀ j ∈ afterCancel (fullTraceF a g none (some k)), j.status = "cancelled") ∧
        stepChanges (afterCancel (fullTraceF a g none (some k))) ≤ 1 ∧
        ((fullTraceF a g none (some k)).map PipelineJob.status).getLast? =
          some "cancelled" := by
      cases a <;> cases g <;> exact (by decide)
    exact key k hk2 hk
  · have key2 : ∀ i, i < 5 → 1 ≤ i → i ≤ fallibleSteps a →
        3 * i - 1 ≤ lastCheckIdx a ∧
        "cancelled" ∈ (fullTraceF a g (some i) (some (3 * i - 1))).map PipelineJob.status ∧
        ((fullTraceF a g (some i) (some (3 * i - 1))).map PipelineJob.status).getLast? =
          some "failed" := by
      cases a <;> cases g <;> exact (by decide)
    intro i h1 h2
    have hfs : fallibleSteps a ≤ 4 := by cases a <;> simp [fallibleSteps]
    exact key2 i (by omega) h1 h2

/-- Witness for the amended C4: a concrete failure-free cancellation that
sticks, and a concrete mid-step cancellation overridden by a step
failure. -/
theorem cancel_before_last_check_stops_w :
    ((∀ j ∈ afterCancel (fullTraceF true false none (some 3)), j.status = "cancelled") ∧
      stepChanges (afterCancel (fullTraceF true false none (some 3))) ≤ 1 ∧
      ((fullTraceF true false none (some 3)).map PipelineJob.status).getLast? =
        some "cancelled") ∧
    (3 * 2 - 1 ≤ lastCheckIdx true ∧
      "cancelled" ∈ (fullTraceF true false (some 2) (some (3 * 2 - 1))).map PipelineJob.status ∧
      ((fullTraceF true false (some 2) (some (3 * 2 - 1))).map PipelineJob.status).getLast? =
        some "failed") :=
  ⟨(cancel_before_last_check_stops true false 3 (by decide)).1,
   (cancel_before_last_check_stops true false 3 (by decide)).2 2 (by decide) (by decide)⟩

/-- JSON values as produced by `json.load`; numbers are modelled as
integers (the state file only ever holds naturals and lists of floats,
none of which this claim inspects). -/
inductive Json where
  | str : String → Json
  | num : Int → Json
  | bool : Bool → Json
  | null : Json
  | arr : List Json → Json
  | obj : List (String × Json) → Json

/-- First binding of a key in a decoded JSON object (Python `dict.get`;
`json.load` produces unique keys, keeping the last duplicate). -/
def lookupKey : List (String × Json) → String → Option Json
  | [], _ => none
  | (k2, v) :: rest, k => if k2 = k then some v else lookupKey rest k

/-- Assignment `state[k] = v` on a decoded JSON object: overwrite the
existing binding, or append one. -/
def setKeyJ : List (String × Json) → String → Json → List (String × Json)
  | [], k, v => [(k, v)]
  | (k2, v2) :: rest, k, v =>
    if k2 = k then (k, v) :: rest else (k2, v2) :: setKeyJ rest k v

/-- Truth value of `state.get("status") == "running"`: a comparison of an
arbitrary JSON value against a string literal. -/
def isRunningStatus : Option Json → Bool
  | some (Json.str s) => s = "running"
  | _ => false

/-- Models `load_stale_state(output_dir)` (pipeline_runner.py lines
144-169) over a single-file filesystem: given the current content of
`pipeline_state.json` (`none` when absent or undecodable), returns the
function result together with the new file content.  When the decoded
object's `status` equals the string `"running"`, the status is changed to
`"interrupted"`, written back, and the mutated state returned; otherwise
`None` is returned and the file is untouched.  A decodable file whose top
level is not an object is grouped with the undecodable case (the source
would raise `AttributeError` there, a path no claim exercises). -/
def load_stale_state : Option Json → Option Json × Option Json
  | none => (none, none)
  | some (Json.obj kvs) =>
    if isRunningStatus (lookupKey kvs "status") then
      let s2 := Json.obj (setKeyJ kvs "status" (Json.str "interrupted"))
      (some s2, some s2)
    else (none, some (Json.obj kvs))
  | some j => (none, some j)

theorem lookupKey_setKeyJ (k : String) (v : Json) :
    ∀ kvs : List (String × Json), lookupKey (setKeyJ kvs k v) k = some v := by
  intro kvs
  induction kvs with
  | nil => simp [setKeyJ, lookupKey]
  | cons p rest ih =>
    obtain ⟨k2, v2⟩ := p
    by_cases h : k2 = k
    · simp [setKeyJ, lookupKey, h]
    · simp [setKeyJ, lookupKey, h, ih]

/-- Claim C5: a state file whose object carries `status = "running"` is
returned by the first `load_stale_state` call with status rewritten to
`interrupted`, the file is rewritten the same way, and a second call on
the rewritten file returns `None` — the interrupted signal is consumed
exactly once. -/
theorem load_stale_state_consumes_once (kvs : List (String × Json))
    (h : lookupKey kvs "status" = some (Json.str "running")) :
    (load_stale_state (some (Json.obj kvs))).1 =
      some (Json.obj (setKeyJ kvs "status" (Json.str "interrupted"))) ∧
    (load_stale_state (some (Json.obj kvs))).2 =
      some (Json.obj (setKeyJ kvs "status" (Json.str "interrupted"))) ∧
    lookupKey (setKeyJ kvs "status" (Json.str "interrupted")) "status" =
      some (Json.str "interrupted") ∧
    (load_stale_state (load_stale_state (some (Json.obj kvs))).2).1 = none := by
  have hb : isRunningStatus (lookupKey kvs "status") = true := by
    rw [h]; rfl
  have hb2 : isRunningStatus (lookupKey
      (setKeyJ kvs "status" (Json.str "interrupted")) "status") = false := by
    rw [lookupKey_setKeyJ]; rfl
  refine ⟨?_, ?_, lookupKey_setKeyJ _ _ kvs, ?_⟩
  · simp [load_stale_state, hb]
  · simp [load_stale_state, hb]
  · simp [load_stale_state, hb, hb2]

/-- Witness for C5 at a concrete crashed-state file. -/
theorem load_stale_state_consumes_once_w :
    (load_stale_state (some (Json.obj [("status", Json.str "running"),
        ("current_step", Json.num 2)]))).1 =
      some (Json.obj (setKeyJ [("status", Json.str "running"),
        ("current_step", Json.num 2)] "status" (Json.str "interrupted"))) ∧
    (load_stale_state (some (Json.obj [("status", Json.str "running"),
        ("current_step", Json.num 2)]))).2 =
      some (Json.obj (setKeyJ [("status", Json.str "running"),
        ("current_step", Json.num 2)] "status" (Json.str "interrupted"))) ∧
    lookupKey (setKeyJ [("status", Json.str "running"), ("current_step", Json.num 2)]
        "status" (Json.str "interrupted")) "status" = some (Json.str "interrupted") ∧
    (load_stale_state (load_stale_state (some (Json.obj [("status", Json.str "running"),
        ("current_step", Json.num 2)]))).2).1 = none :=
  load_stale_state_consumes_once _ (by simp [lookupKey])

/-- Models Python `str.lower()` (the texts involved are ASCII). -/
def lowerS (s : Str) : Str := s.map Char.toLower

/-- Boolean test that `p` is a leading segment of `s`. -/
def hasPrefixL : Str → Str → Bool
  | [], _ => true
  | _ :: _, [] => false
  | p :: ps, c :: cs => p = c && hasPrefixL ps cs

/-- Boolean substring test, modelling Python `p in s`. -/
def containsSub (p : Str) : Str → Bool
  | [] => hasPrefixL p []
  | c :: rest => hasPrefixL p (c :: rest) || containsSub p rest

/-- Models `s.split(p)[0]` for non-empty `p`: the segment before the first
occurrence of `p`, or all of `s` when `p` does not occur. -/
def takeBeforeSub (p : Str) : Str → Str
  | [] => []
  | c :: rest =>
    if hasPrefixL p (c :: rest) then [] else c :: takeBeforeSub p rest

/-- Closing-phrase vocabulary of the goodbye heuristic (step3.py lines
331-333), in source order. -/
def goodbye_phrases : List Str :=
  [lit "goodbye", lit "bye", lit "farewell", lit "until next time", lit "see you",
   lit "thanks for listening", lit "that\x27s all", lit "wrapping up",
   lit "concluding", lit "end of", lit "final thoughts"]

/-- Neutral continuation phrase appended in place of a stripped ending. -/
def contPhrase : Str := lit "let\x27s continue our discussion."

/-- First phrase of the vocabulary contained in the lowercased text,
modelling `next((p for p in goodbye_phrases if p in text.lower()), None)`. -/
def goodbyeMatch (text : Str) : Option Str :=
  goodbye_phrases.find? (fun p => containsSub p (lowerS text))

/-- Per-turn transformation of the goodbye filter (step3.py lines
335-341): a turn with no matching phrase passes through; otherwise the
turn text becomes `text.lower().split(found)[0]` followed by the neutral
continuation phrase. -/
def filterTurn (turn : Str × Str) : Str × Str :=
  match goodbyeMatch turn.2 with
  | none => turn
  | some p => (turn.1, takeBeforeSub p (lowerS turn.2) ++ contPhrase)

/-- Goodbye filtering step of `generate_rewritten_transcript_with_overlap`
(step3.py lines 329-342): applied only to non-final windows. -/
def applyGoodbyeFilter (is_final_chunk : Bool) (chunk_data : List (Str × Str)) :
    List (Str × Str) :=
  if is_final_chunk then chunk_data else chunk_data.map filterTurn

/-- Claim C9 counterexample: the turn text kept before the phrase is NOT
otherwise unchanged — the source lowercases it (`text.lower().split(...)`),
so `"Hello goodbye friends"` keeps `"hello "`, not `"Hello "`. -/
theorem goodbye_filter_lowercases_cex :
    applyGoodbyeFilter false [(lit "Speaker 1", lit "Hello goodbye friends")] =
      [(lit "Speaker 1", lit "hello " ++ contPhrase)] ∧
    applyGoodbyeFilter false [(lit "Speaker 1", lit "Hello goodbye friends")] ≠
      [(lit "Speaker 1", lit "Hello " ++ contPhrase)] := by
  exact ⟨by decide, by decide⟩

theorem hasPrefixL_iff_exists (p : Str) :
    ∀ s : Str, hasPrefixL p s = true ↔ ∃ rest, s = p ++ rest := by
  induction p with
  | nil =>
    intro s
    simp [hasPrefixL]
  | cons x xs ih =>
    intro s
    cases s with
    | nil =>
      simp [hasPrefixL]
    | cons c cs =>
      simp only [hasPrefixL, Bool.and_eq_true, decide_eq_true_eq, ih cs]
      constructor
      · rintro ⟨hx, rest, hrest⟩
        exact ⟨rest, by simp [hx, hrest]⟩
      · rintro ⟨rest, hrest⟩
        simp only [List.cons_append, List.cons.injEq] at hrest
        exact ⟨hrest.1.symm, rest, hrest.2⟩

theorem takeBeforeSub_splits (p : Str) :
    ∀ s : Str, containsSub p s = true →
      ∃ rest, s = takeBeforeSub p s ++ p ++ rest := by
  intro s
  induction s with
  | nil =>
    intro h
    simp only [containsSub] at h
    obtain ⟨rest, hrest⟩ := (hasPrefixL_iff_exists p []).mp h
    exact ⟨rest, by simpa [takeBeforeSub] using hrest⟩
  | cons c cs ih =>
    intro h
    by_cases hp : hasPrefixL p (c :: cs) = true
    · obtain ⟨rest, hrest⟩ := (hasPrefixL_iff_exists p (c :: cs)).mp hp
      refine ⟨rest, ?_⟩
      simp only [takeBeforeSub, hp, if_true, List.nil_append]
      exact hrest
    · simp only [containsSub, Bool.or_eq_true] at h
      rcases h with h | h
      · exact absurd h hp
      · obtain ⟨rest, hrest⟩ := ih h
        refine ⟨rest, ?_⟩
        simp only [List.append_assoc] at hrest ⊢
        simp only [takeBeforeSub, hp, if_false, List.cons_append]
        exact congrArg (List.cons c) hrest

/-- Claim C9 amended: turns of the final window are never filtered; a
non-final turn with no matching closing phrase passes through unchanged;
and a non-final turn containing a closing phrase is replaced by the
LOWERCASED text before the first occurrence of the first matching phrase
(the lowercased text splits exactly there), followed by the neutral
continuation phrase — the kept prefix is lowercased, not left unchanged. -/
theorem goodbye_filter_spec (data : List (Str × Str)) (sp text p : Str)
    (hm : goodbyeMatch text = some p) :
    applyGoodbyeFilter true data = data ∧
    (∀ sp2 t2, goodbyeMatch t2 = none →
      applyGoodbyeFilter false [(sp2, t2)] = [(sp2, t2)]) ∧
    (∃ rest, lowerS text = (takeBeforeSub p (lowerS text) ++ p) ++ rest) ∧
    applyGoodbyeFilter false [(sp, text)] =
      [(sp, takeBeforeSub p (lowerS text) ++ contPhrase)] := by
  refine ⟨by simp [applyGoodbyeFilter], ?_, ?_, ?_⟩
  · intro sp2 t2 h2
    simp [applyGoodbyeFilter, filterTurn, h2]
  · have hc : containsSub p (lowerS text) = true := by
      have := List.find?_some hm
      simpa using this
    exact takeBeforeSub_splits p (lowerS text) hc
  · simp [applyGoodbyeFilter, filterTurn, hm]

/-- Witness for the amended C9 at a concrete turn containing "goodbye". -/
theorem goodbye_filter_spec_w :
    applyGoodbyeFilter true [(lit "Speaker 2", lit "ok")] = [(lit "Speaker 2", lit "ok")] ∧
    (∀ sp2 t2, goodbyeMatch t2 = none →
      applyGoodbyeFilter false [(sp2, t2)] = [(sp2, t2)]) ∧
    (∃ rest, lowerS (lit "Hello goodbye friends") =
      (takeBeforeSub (lit "goodbye") (lowerS (lit "Hello goodbye friends")) ++
        lit "goodbye") ++ rest) ∧
    applyGoodbyeFilter false [(lit "Speaker 1", lit "Hello goodbye friends")] =
      [(lit "Speaker 1",
        takeBeforeSub (lit "goodbye") (lowerS (lit "Hello goodbye friends")) ++ contPhrase)] :=
  goodbye_filter_spec [(lit "Speaker 2", lit "ok")] (lit "Speaker 1")
    (lit "Hello goodbye friends") (lit "goodbye") (by decide)

/-- Models Python `str.strip()`: drop leading and trailing whitespace. -/
def pyStrip (s : Str) : Str :=
  ((s.dropWhile (fun c => c.isWhitespace)).reverse.dropWhile
    (fun c => c.isWhitespace)).reverse

/-- Replacement table of the smart-punctuation cleanup (step3.py lines
148-150): curly quotes become ASCII quotes, the ellipsis becomes `...`. -/
def expandSmart (c : Char) : Str :=
  if c = '‘' ∨ c = '’' then ['\x27']
  else if c = '“' ∨ c = '”' then ['"']
  else if c = '…' then ['.', '.', '.']
  else [c]

/-- Sequential `str.replace` calls of the smart-punctuation cleanup;
equivalent to one pass since no replacement output is itself replaced. -/
def cleanSmart : Str → Str
  | [] => []
  | c :: rest => expandSmart c ++ cleanSmart rest

/-- Splits on newline characters, keeping empty lines. -/
def splitLinesAux : Str → Str → List Str
  | [], cur => [cur.reverse]
  | c :: rest, cur =>
    if c = '\n' then cur.reverse :: splitLinesAux rest []
    else splitLinesAux rest (c :: cur)

/-- Lines of a string, as cut by `\n`. -/
def splitLines (s : Str) : List Str := splitLinesAux s []

/-- Inverse of `splitLines`. -/
def joinLines : List Str → Str
  | [] => []
  | [l] => l
  | l :: m :: rest => l ++ '\n' :: joinLines (m :: rest)

/-- Three backticks, the markdown fence marker. -/
def backticks : Str := lit "```"

/-- Models the opening-fence removal `re.sub(r'^```(?:python)?\s*\n?', ...)`
on one line: strip the marker, an optional `python` tag and following
whitespace at line start. -/
def stripLineOpen (l : Str) : Str :=
  if hasPrefixL backticks l then
    let l1 := l.drop 3
    let l2 := if hasPrefixL (lit "python") l1 then l1.drop 6 else l1
    l2.dropWhile (fun c => c.isWhitespace)
  else l

/-- Drops trailing whitespace of one line. -/
def dropTrailingWs (l : Str) : Str :=
  (l.reverse.dropWhile (fun c => c.isWhitespace)).reverse

/-- Boolean test that `p` is a trailing segment of `s`. -/
def hasSuffixL (p s : Str) : Bool := hasPrefixL p.reverse s.reverse

/-- Models the closing-fence removal `re.sub(r'\n?```\s*$', ...)` on one
line: strip a trailing marker and the whitespace after it. -/
def stripLineClose (l : Str) : Str :=
  let core := dropTrailingWs l
  if hasSuffixL backticks core then core.take (core.length - 3) else l

/-- Markdown code-fence stripping (step3.py lines 152-153), modelled line
by line; the regexes' ability to also delete the separating newline of a
pure marker line is not modelled, as no claim depends on line joining. -/
def stripFences (s : Str) : Str :=
  joinLines ((splitLines s).map (fun l => stripLineClose (stripLineOpen l)))

/-- Cleaning pipeline applied by `parse_transcript_flexible` after the
initial emptiness test (step3.py lines 147-154): smart punctuation, code
fences, then a final strip. -/
def cleanAfterStrip (raw : Str) : Str := pyStrip (stripFences (cleanSmart raw))

/-- Skips leading whitespace. -/
def skipWs (s : Str) : Str := s.dropWhile (fun c => c.isWhitespace)

/-- Value of one hexadecimal digit. -/
def hexVal (c : Char) : Option Nat :=
  if '0' ≤ c ∧ c ≤ '9' then some (c.toNat - '0'.toNat)
  else if 'a' ≤ c ∧ c ≤ 'f' then some (c.toNat - 'a'.toNat + 10)
  else if 'A' ≤ c ∧ c ≤ 'F' then some (c.toNat - 'A'.toNat + 10)
  else none

/-- Single-character Python string escapes recognised by the embedded
literal grammar; the rarer escapes (`\0`, `\a`, `\b`, octal, `\N`) are
outside the model, making the parse fail where `literal_eval` could
succeed — no claim exercises them and `repr` never emits them. -/
def simpleEsc (c : Char) : Option Char :=
  if c = 'n' then some '\n'
  else if c = 't' then some '\t'
  else if c = 'r' then some '\r'
  else if c = '\\' then some '\\'
  else if c = '\x27' then some '\x27'
  else if c = '"' then some '"'
  else none

/-- Prepends a character to the parsed part of a parser result. -/
def consCh (c : Char) : Option (Str × Str) → Option (Str × Str)
  | some (b, r) => some (c :: b, r)
  | none => none

/-- Two-digit hex escape `\xHH`; `k` continues parsing the body. -/
def parseHex2 (k : Str → Option (Str × Str)) : Str → Option (Str × Str)
  | h1 :: h2 :: rest3 =>
    match hexVal h1, hexVal h2 with
    | some a, some b => consCh (Char.ofNat (16 * a + b)) (k rest3)
    | _, _ => none
  | _ => none

/-- Four-digit hex escape `\uHHHH`; `k` continues parsing the body. -/
def parseHex4 (k : Str → Option (Str × Str)) : Str → Option (Str × Str)
  | h1 :: h2 :: h3 :: h4 :: rest3 =>
    match hexVal h1, hexVal h2, hexVal h3, hexVal h4 with
    | some a, some b, some c, some d =>
      consCh (Char.ofNat (4096 * a + 256 * b + 16 * c + d)) (k rest3)
    | _, _, _, _ => none
  | _ => none

/-- Escape sequence after a backslash inside a Python string literal;
`k` continues parsing the remaining body. -/
def parseEscF (k : Str → Option (Str × Str)) : Str → Option (Str × Str)
  | [] => none
  | e :: rest2 =>
    if e = 'x' then parseHex2 k rest2
    else if e = 'u' then parseHex4 k rest2
    else
      match simpleEsc e with
      | some ch => consCh ch (k rest2)
      | none => none

/-- Body of a Python string literal delimited by quote `q`, consuming up
to and including the closing quote; a raw newline is rejected, as in
Python source.  The fuel only needs to exceed the body length. -/
def parseStrBodyF : Nat → Char → Str → Option (Str × Str)
  | 0, _, _ => none
  | fuel + 1, q, s =>
    match s with
    | [] => none
    | c :: rest =>
      if c = q then some ([], rest)
      else if c = '\\' then parseEscF (parseStrBodyF fuel q) rest
      else if c = '\n' then none
      else consCh c (parseStrBodyF fuel q rest)

/-- Python string literal: a quote character, a body, the closing quote. -/
def parseStrLit : Str → Option (Str × Str)
  | c :: rest =>
    if c = '\x27' ∨ c = '"' then parseStrBodyF (rest.length + 1) c rest else none
  | [] => none

/-- One 2-tuple (or 2-list) of string literals of the `literal_eval`
grammar, with optional trailing comma.  Tuples of other arities are
rejected: in the source a longer string tuple passes `_validate_parsed`
but then blows up the `for s, t in data` unpacking, whose exception is
caught by the same `try`, so the strategy falls through either way. -/
def parsePairEl (s : Str) : Option ((Str × Str) × Str) :=
  match s with
  | o :: rest =>
    if o = '(' ∨ o = '[' then
      match parseStrLit (skipWs rest) with
      | some (a, s2) =>
        match skipWs s2 with
        | ',' :: s3 =>
          match parseStrLit (skipWs s3) with
          | some (b, s4) =>
            let s5 := skipWs s4
            let s6 := match s5 with
              | ',' :: t => skipWs t
              | _ => s5
            match s6 with
            | c :: s7 =>
              if (o = '(' ∧ c = ')') ∨ (o = '[' ∧ c = ']') then some ((a, b), s7)
              else none
            | [] => none
          | none => none
        | _ => none
      | none => none
    else none
  | [] => none

/-- Remaining elements of the literal list after the first pair: either
the closing bracket, or a comma followed by another pair.  The fuel only
needs to exceed the number of elements. -/
def parsePairsLoop : Nat → Str → Option (List (Str × Str) × Str)
  | 0, _ => none
  | fuel + 1, s =>
    match skipWs s with
    | ']' :: r => some ([], r)
    | ',' :: r =>
      match skipWs r with
      | ']' :: r2 => some ([], r2)
      | r2 =>
        match parsePairEl r2 with
        | some (p, s2) =>
          match parsePairsLoop fuel s2 with
          | some (ps, s3) => some (p :: ps, s3)
          | none => none
        | none => none
    | _ => none

/-- Models `literal_eval(cleaned)` restricted to the list-of-string-pairs
shapes that survive `_validate_parsed` plus pair unpacking (step3.py
lines 42-51 and 157-162): a bracketed, comma-separated, possibly
trailing-comma list of 2-tuples/2-lists of string literals spanning the
whole input.  Other literals parse in Python but are rejected by the
validation or unpacking, so they fall through identically. -/
def pyLiteralListParse (s : Str) : Option (List (Str × Str)) :=
  match skipWs s with
  | '[' :: rest =>
    match skipWs rest with
    | ']' :: s2 => if skipWs s2 = [] then some [] else none
    | s1 =>
      match parsePairEl s1 with
      | some (p, s2) =>
        match parsePairsLoop (s2.length + 1) s2 with
        | some (ps, s3) => if skipWs s3 = [] then some (p :: ps) else none
        | none => none
      | none => none
  | _ => none

/-- Strategy 1 of the cascade: the literal parse, valid only when the
result is a non-empty list of string pairs. -/
def strategy1 (cleaned : Str) : Option (List (Str × Str)) :=
  match pyLiteralListParse cleaned with
  | some (x :: xs) => some (x :: xs)
  | _ => none

/-- Case-insensitive literal match (the regexes carry `re.IGNORECASE`),
returning the input after the matched part. -/
def ciPrefixDrop : Str → Str → Option Str
  | [], s => some s
  | _ :: _, [] => none
  | p :: ps, c :: cs => if p.toLower = c.toLower then ciPrefixDrop ps cs else none

/-- Matches the group `(Speaker\s*\d+)` case-insensitively, returning the
digit run and the rest. -/
def matchSpeakerDigits (s : Str) : Option (Str × Str) :=
  match ciPrefixDrop (lit "speaker") s with
  | some s1 =>
    let s2 := skipWs s1
    let ds := s2.takeWhile (fun c => c.isDigit)
    if ds = [] then none else some (ds, s2.drop ds.length)
  | none => none

/-- Canonical label built by `_normalize_speaker` from an extracted digit
run (step3.py lines 36-39). -/
def speakerLabel (ds : Str) : Str := lit "Speaker " ++ ds

/-- Models `_normalize_speaker(s)`: `Speaker N` from the first embedded
digit run, else `Speaker 1`. -/
def firstDigitRun : Str → Option Str
  | [] => none
  | c :: rest =>
    if c.isDigit then some ((c :: rest).takeWhile (fun x => x.isDigit))
    else firstDigitRun rest

/-- Normalisation of a free-form speaker name to `Speaker N`. -/
def normalizeSpeaker (s : Str) : Str :=
  match firstDigitRun s with
  | some ds => speakerLabel ds
  | none => lit "Speaker 1"

/-- Quoted-body fragment `((?:[^q\\]|\\.)*)q`: any run of non-quote,
non-backslash characters or backslash pairs, up to the closing quote;
returns the raw body (escapes untouched) and the rest. -/
def bodyEsc (q : Char) : Str → Option (Str × Str)
  | [] => none
  | '\\' :: c :: rest =>
    match bodyEsc q rest with
    | some (b, r) => some ('\\' :: c :: b, r)
    | none => none
  | c :: rest =>
    if c = q then some ([], rest)
    else
      match bodyEsc q rest with
      | some (b, r) => some (c :: b, r)
      | none => none

/-- Plain substring replacement, modelling Python `str.replace` (used for
the `\\"` → `"` fixup of strategy 2); scans left to right. -/
def replaceSub (pat rep : Str) : Nat → Str → Str
  | 0, s => s
  | _, [] => []
  | fuel + 1, c :: rest =>
    if hasPrefixL pat (c :: rest) then rep ++ replaceSub pat rep fuel ((c :: rest).drop pat.length)
    else c :: replaceSub pat rep fuel rest

/-- One match of the single-quote or double-quote tuple regex of
`_extract_tuples_regex` (step3.py lines 58-76), positioned right after
an opening parenthesis: `\s* q Speaker\s*\d+ q \s*,\s* q body q \s*\)`.
The extracted text gets the `\\q` → `q` replacement and a strip. -/
def matchTupleQ (q : Char) (s : Str) : Option ((Str × Str) × Str) :=
  match skipWs s with
  | c1 :: s1 =>
    if c1 = q then
      match matchSpeakerDigits s1 with
      | some (ds, s2) =>
        match s2 with
        | c2 :: s3 =>
          if c2 = q then
            match skipWs s3 with
            | ',' :: s4 =>
              match skipWs s4 with
              | c3 :: s5 =>
                if c3 = q then
                  match bodyEsc q s5 with
                  | some (raw, s6) =>
                    match skipWs s6 with
                    | ')' :: s7 =>
                      some ((speakerLabel ds,
                        pyStrip (replaceSub ['\\', q] [q] raw.length raw)), s7)
                    | _ => none
                  | none => none
                else none
              | [] => none
            | _ => none
          else none
        | [] => none
      | none => none
    else none
  | [] => none

/-- Non-overlapping scan for quoted tuples, continuing after each match
as `re.finditer` does. -/
def scanTuples (q : Char) : Nat → Str → List (Str × Str)
  | 0, _ => []
  | _, [] => []
  | fuel + 1, c :: rest =>
    if c = '(' then
      match matchTupleQ q rest with
      | some (p, r2) => p :: scanTuples q fuel r2
      | none => scanTuples q fuel rest
    else scanTuples q fuel rest

/-- Lazy body of the mixed-quote pattern `['"](.+?)['"]\s*\)`: the
shortest non-empty run whose following character is a quote followed by
optional whitespace and a closing parenthesis. -/
def lazyBodyAux : Nat → Str → Str → Option (Str × Str)
  | 0, _, _ => none
  | _, _, [] => none
  | fuel + 1, acc, c :: rest =>
    if c = '\x27' ∨ c = '"' then
      match skipWs rest with
      | ')' :: r2 => some (acc.reverse, r2)
      | _ => lazyBodyAux fuel (c :: acc) rest
    else lazyBodyAux fuel (c :: acc) rest

/-- Entry point of the lazy body scan; the `.+?` demands at least one
body character before a closing quote. -/
def lazyBody : Str → Option (Str × Str)
  | [] => none
  | c :: rest => lazyBodyAux (rest.length + 1) [c] rest

/-- One match of the lenient mixed-quote tuple pattern (step3.py lines
79-86), positioned right after an opening parenthesis; each quote may
independently be single or double and the text is only stripped. -/
def matchTupleM (s : Str) : Option ((Str × Str) × Str) :=
  match skipWs s with
  | c1 :: s1 =>
    if c1 = '\x27' ∨ c1 = '"' then
      match matchSpeakerDigits s1 with
      | some (ds, s2) =>
        match s2 with
        | c2 :: s3 =>
          if c2 = '\x27' ∨ c2 = '"' then
            match skipWs s3 with
            | ',' :: s4 =>
              match skipWs s4 with
              | c3 :: s5 =>
                if c3 = '\x27' ∨ c3 = '"' then
                  match lazyBody s5 with
                  | some (body, r2) => some ((speakerLabel ds, pyStrip body), r2)
                  | none => none
                else none
              | [] => none
            | _ => none
          else none
        | [] => none
      | none => none
    else none
  | [] => none

/-- Non-overlapping scan for mixed-quote tuples. -/
def scanMixed : Nat → Str → List (Str × Str)
  | 0, _ => []
  | _, [] => []
  | fuel + 1, c :: rest =>
    if c = '(' then
      match matchTupleM rest with
      | some (p, r2) => p :: scanMixed fuel r2
      | none => scanMixed fuel rest
    else scanMixed fuel rest

/-- Strategy 2, `_extract_tuples_regex` (step3.py lines 54-86): the
double-quote, single-quote then mixed-quote variants in order, each
accepted only with at least two matches. -/
def extract_tuples_regex (text : Str) : List (Str × Str) :=
  let rd := scanTuples '"' text.length text
  if 2 ≤ rd.length then rd
  else
    let rs := scanTuples '\x27' text.length text
    if 2 ≤ rs.length then rs
    else
      let rm := scanMixed text.length text
      if 2 ≤ rm.length then rm else []

/-- Greedy `\*{0,2}`: up to two literal asterisks. -/
def dropUpTo2Stars : Str → Str
  | '*' :: '*' :: rest => rest
  | '*' :: rest => rest
  | s => s

/-- One match of the label pattern of `_extract_plain_dialogue`
(step3.py line 94), after its `^`/`\n` anchor:
`\s*\*{0,2}(Speaker\s*\d+)\*{0,2}\s*[:：\-—]\s*`. -/
def matchLabelAt (s : Str) : Option (Str × Str) :=
  let s2 := dropUpTo2Stars (skipWs s)
  match matchSpeakerDigits s2 with
  | some (ds, s3) =>
    match skipWs (dropUpTo2Stars s3) with
    | sep :: s5 =>
      if sep = ':' ∨ sep = '：' ∨ sep = '-' ∨ sep = '—' then some (ds, skipWs s5)
      else none
    | [] => none
  | none => none

/-- Segment collection of the label split: returns the text up to the
next label anchor and the (digits, segment) turns after it. -/
def plainParts : Nat → Str → Str → (Str × List (Str × Str))
  | 0, cur, s => (cur.reverse ++ s, [])
  | _ + 1, cur, [] => (cur.reverse, [])
  | fuel + 1, cur, c :: rest =>
    if c = '\n' then
      match matchLabelAt rest with
      | some (ds, r2) =>
        let pr := plainParts fuel [] r2
        (cur.reverse, (ds, pr.1) :: pr.2)
      | none => plainParts fuel ('\n' :: cur) rest
    else plainParts fuel (c :: cur) rest

/-- Strategy 3, `_extract_plain_dialogue` (step3.py lines 89-106): split
on `Speaker N:`-style labels at line starts, normalise each speaker and
collapse each dialogue segment's whitespace, dropping empty segments. -/
def extract_plain_dialogue (text : Str) : List (Str × Str) :=
  let turns :=
    match matchLabelAt text with
    | some (ds, r2) =>
      let pr := plainParts (r2.length + 1) [] r2
      (ds, pr.1) :: pr.2
    | none => (plainParts (text.length + 1) [] text).2
  turns.filterMap (fun t =>
    let d := joinSp (pySplitWs t.2)
    if d = [] then none else some (speakerLabel t.1, d))

/-- Span of the greedy `\[[\s\S]*\]` match: from the first `[` to the
last `]`, when both exist in order. -/
def firstBracketSpan (s : Str) : Option Str :=
  let t := s.dropWhile (fun c => c != '[')
  match t with
  | [] => none
  | _ :: _ =>
    let r2 := t.reverse.dropWhile (fun c => c != ']')
    match r2 with
    | [] => none
    | _ :: _ => some r2.reverse

/-- Lowercase hexadecimal digit. -/
def hexDigit (n : Nat) : Char :=
  if n < 10 then Char.ofNat (48 + n) else Char.ofNat (87 + n)

/-- Escape of one character inside a Python `repr` string literal with
quote `q`: backslash, the chosen quote, newline/CR/tab, and `\xHH` for
the remaining control characters.  Non-printable characters above 127
(escaped by CPython via its Unicode tables) are not modelled; they pass
through verbatim, which leaves every round-trip statement intact since
the literal parser reads them back verbatim too. -/
def escCharPy (q c : Char) : Str :=
  if c = '\\' then ['\\', '\\']
  else if c = q then ['\\', q]
  else if c = '\n' then ['\\', 'n']
  else if c = '\r' then ['\\', 'r']
  else if c = '\t' then ['\\', 't']
  else if c.toNat < 32 ∨ c.toNat = 127 then
    ['\\', 'x', hexDigit (c.toNat / 16), hexDigit (c.toNat % 16)]
  else [c]

/-- Escaped body of a `repr` string literal. -/
def escBody (q : Char) : Str → Str
  | [] => []
  | c :: rest => escCharPy q c ++ escBody q rest

/-- Quote character chosen by Python `repr`: single quotes unless the
string contains one and no double quote. -/
def pyReprQuote (s : Str) : Char :=
  if s.contains '\x27' && !(s.contains '"') then '"' else '\x27'

/-- Models Python `repr` of a string. -/
def pyReprStr (s : Str) : Str :=
  pyReprQuote s :: escBody (pyReprQuote s) s ++ [pyReprQuote s]

/-- Models Python `repr` of a 2-tuple of strings. -/
def pyReprPair (p : Str × Str) : Str :=
  '(' :: (pyReprStr p.1 ++ ',' :: ' ' :: pyReprStr p.2) ++ [')']

/-- Comma-separated element list of a Python list `repr`. -/
def reprElems : List (Str × Str) → Str
  | [] => []
  | [p] => pyReprPair p
  | p :: q :: rest => pyReprPair p ++ ',' :: ' ' :: reprElems (q :: rest)

/-- Models Python `str(D)` for a list of 2-tuples of strings — the
serialisation used for the dialogue output contract (step3.py line 352
and 451). -/
def pyReprList (d : List (Str × Str)) : Str := '[' :: reprElems d ++ [']']

/-- Body of a JSON string literal, consuming the closing quote. -/
def jsonStrBody : Str → Option (Str × Str)
  | [] => none
  | '\\' :: rest =>
    match rest with
    | [] => none
    | 'u' :: h1 :: h2 :: h3 :: h4 :: rest2 =>
      match hexVal h1, hexVal h2, hexVal h3, hexVal h4 with
      | some a, some b, some c, some d =>
        consCh (Char.ofNat (4096 * a + 256 * b + 16 * c + d)) (jsonStrBody rest2)
      | _, _, _, _ => none
    | e :: rest2 =>
      let dec : Option Char :=
        if e = '"' then some '"'
        else if e = '\\' then some '\\'
        else if e = '/' then some '/'
        else if e = 'b' then some (Char.ofNat 8)
        else if e = 'f' then some (Char.ofNat 12)
        else if e = 'n' then some '\n'
        else if e = 'r' then some '\r'
        else if e = 't' then some '\t'
        else none
      match dec with
      | some ch => consCh ch (jsonStrBody rest2)
      | none => none
  | c :: rest =>
    if c = '"' then some ([], rest)
    else if c.toNat < 32 then none
    else consCh c (jsonStrBody rest)

/-- Digits of a decimal number. -/
def natOfDigits (ds : Str) : Nat :=
  ds.foldl (fun acc c => acc * 10 + (c.toNat - 48)) 0

mutual

/-- Models `json.loads` values (used by `_extract_json_dialogue`), with
enough fuel; numbers are restricted to integers — a fractional or
exponent part makes the parse fail where Python would build a float,
a case no claim exercises. -/
def jsonVal : Nat → Str → Option (Json × Str)
  | 0, _ => none
  | fuel + 1, s =>
    match skipWs s with
    | [] => none
    | '"' :: rest =>
      match jsonStrBody rest with
      | some (b, r) => some (Json.str (String.mk b), r)
      | none => none
    | 't' :: rest =>
      if hasPrefixL (lit "rue") rest then some (Json.bool true, rest.drop 3) else none
    | 'f' :: rest =>
      if hasPrefixL (lit "alse") rest then some (Json.bool false, rest.drop 4) else none
    | 'n' :: rest =>
      if hasPrefixL (lit "ull") rest then some (Json.null, rest.drop 3) else none
    | '[' :: rest =>
      match skipWs rest with
      | ']' :: r2 => some (Json.arr [], r2)
      | _ => jsonArrLoop fuel rest []
    | '{' :: rest =>
      match skipWs rest with
      | '}' :: r2 => some (Json.obj [], r2)
      | _ => jsonObjLoop fuel rest []
    | c :: rest =>
      if c = '-' ∨ c.isDigit then
        let s1 := if c = '-' then rest else c :: rest
        let ds := s1.takeWhile (fun x => x.isDigit)
        if ds = [] then none
        else
          let r2 := s1.drop ds.length
          match r2 with
          | '.' :: _ => none
          | 'e' :: _ => none
          | 'E' :: _ => none
          | _ =>
            let v : Int := natOfDigits ds
            some (Json.num (if c = '-' then -v else v), r2)
      else none

/-- Elements of a JSON array after the opening bracket. -/
def jsonArrLoop : Nat → Str → List Json → Option (Json × Str)
  | 0, _, _ => none
  | fuel + 1, s, acc =>
    match jsonVal fuel s with
    | some (v, r) =>
      match skipWs r with
      | ',' :: r2 => jsonArrLoop fuel r2 (v :: acc)
      | ']' :: r2 => some (Json.arr (v :: acc).reverse, r2)
      | _ => none
    | none => none

/-- Members of a JSON object after the opening brace. -/
def jsonObjLoop : Nat → Str → List (String × Json) → Option (Json × Str)
  | 0, _, _ => none
  | fuel + 1, s, acc =>
    match skipWs s with
    | '"' :: rest =>
      match jsonStrBody rest with
      | some (k, r) =>
        match skipWs r with
        | ':' :: r2 =>
          match jsonVal fuel r2 with
          | some (v, r3) =>
            match skipWs r3 with
            | ',' :: r4 => jsonObjLoop fuel r4 ((String.mk k, v) :: acc)
            | '}' :: r4 => some (Json.obj (((String.mk k, v) :: acc).reverse), r4)
            | _ => none
          | none => none
        | _ => none
      | none => none
    | _ => none

end

mutual

/-- Models Python `repr` of a decoded JSON value (strings re-quoted,
`True`/`False`/`None` spelling). -/
def jsonReprPy : Json → Str
  | Json.str s => pyReprStr s.data
  | Json.num n => (toString n).data
  | Json.bool true => lit "True"
  | Json.bool false => lit "False"
  | Json.null => lit "None"
  | Json.arr l => '[' :: jsonReprElems l ++ [']']
  | Json.obj kvs => '\x7b' :: jsonReprMembers kvs ++ ['\x7d']

/-- Comma-separated `repr` of array elements. -/
def jsonReprElems : List Json → Str
  | [] => []
  | [x] => jsonReprPy x
  | x :: y :: rest => jsonReprPy x ++ ',' :: ' ' :: jsonReprElems (y :: rest)

/-- Comma-separated `repr` of object members. -/
def jsonReprMembers : List (String × Json) → Str
  | [] => []
  | [(k, v)] => pyReprStr k.data ++ ':' :: ' ' :: jsonReprPy v
  | (k, v) :: m :: rest =>
    pyReprStr k.data ++ ':' :: ' ' :: jsonReprPy v ++ ',' :: ' ' :: jsonReprMembers (m :: rest)

end

/-- Models Python `str(x)` on a decoded JSON value: identity on strings,
`repr` otherwise. -/
def jsonToPyStr : Json → Str
  | Json.str s => s.data
  | j => jsonReprPy j

/-- Turn extracted from one JSON array item by `_extract_json_dialogue`
(step3.py lines 119-127): objects expose speaker/text key aliases with
defaults, pairs map positionally; anything else is skipped. -/
def jsonItemTurn (item : Json) : Option (Str × Str) :=
  match item with
  | Json.obj kvs =>
    let speaker := jsonToPyStr ((lookupKey kvs "speaker").getD
      ((lookupKey kvs "Speaker").getD (Json.str "Speaker 1")))
    let dialogue := jsonToPyStr ((lookupKey kvs "text").getD
      ((lookupKey kvs "dialogue").getD ((lookupKey kvs "content").getD
        ((lookupKey kvs "line").getD (Json.str "")))))
    if dialogue = [] then none else some (normalizeSpeaker speaker, dialogue)
  | Json.arr (a :: b :: _) => some (normalizeSpeaker (jsonToPyStr a), jsonToPyStr b)
  | _ => none

/-- Strategy 4, `_extract_json_dialogue` (step3.py lines 109-130): locate
the `[...]` span, JSON-decode it whole, and collect turns from list
items; any failure yields no turns. -/
def extract_json_dialogue (text : Str) : List (Str × Str) :=
  match firstBracketSpan text with
  | none => []
  | some span =>
    match jsonVal (2 * span.length + 4) span with
    | some (Json.arr items, rest) =>
      if skipWs rest = [] then items.filterMap jsonItemTurn else []
    | _ => []

/-- Bracket noise removal of the monologue fallback (step3.py line 183):
square brackets and parentheses become spaces. -/
def stripBrackets (s : Str) : Str :=
  s.map (fun c => if c = '[' ∨ c = ']' ∨ c = '(' ∨ c = ')' then ' ' else c)

/-- Monologue text of strategy 5: bracket noise blanked, whitespace
collapsed and stripped (step3.py lines 183-184). -/
def monoOf (cleaned : Str) : Str := joinSp (pySplitWs (stripBrackets cleaned))

/-- Fallback chain of the cascade after the literal strategy: regex
tuples, plain dialogue, JSON array, then the monologue fallback with its
30-character minimum (step3.py lines 164-189).  Each `if` mirrors the
source's `if results:` truthiness test. -/
def parseFallback (cleaned : Str) : List (Str × Str) :=
  let r2 := extract_tuples_regex cleaned
  if r2 = [] then
    let r3 := extract_plain_dialogue cleaned
    if r3 = [] then
      let r4 := extract_json_dialogue cleaned
      if r4 = [] then
        if 30 < (monoOf cleaned).length then [(lit "Speaker 1", monoOf cleaned)] else []
      else r4
    else r3
  else r2

/-- Models `parse_transcript_flexible(raw_text)` (step3.py lines
133-189): strip and test emptiness, clean, then try the five strategies
in order. -/
def parse_transcript_flexible (raw_text : Str) : List (Str × Str) :=
  let raw := pyStrip raw_text
  if raw = [] then []
  else
    let cleaned := cleanAfterStrip raw
    match strategy1 cleaned with
    | some d => d
    | none => parseFallback cleaned

/-- Cleaned text computed by the parser for a given raw input. -/
def cleanedOf (raw_text : Str) : Str := cleanAfterStrip (pyStrip raw_text)

theorem strategy1_ne_nil {c : Str} {d : List (Str × Str)}
    (h : strategy1 c = some d) : d ≠ [] := by
  unfold strategy1 at h
  split at h
  · rename_i x xs _
    cases h
    simp
  · cases h

theorem parseFallback_empty {c : Str} (h : parseFallback c = []) :
    (monoOf c).length ≤ 30 := by
  unfold parseFallback at h
  by_cases h2 : extract_tuples_regex c = []
  · rw [if_pos h2] at h
    by_cases h3 : extract_plain_dialogue c = []
    · rw [if_pos h3] at h
      by_cases h4 : extract_json_dialogue c = []
      · rw [if_pos h4] at h
        by_cases h5 : 30 < (monoOf c).length
        · rw [if_pos h5] at h
          cases h
        · omega
      · rw [if_neg h4] at h
        exact absurd h h4
    · rw [if_neg h3] at h
      exact absurd h h3
  · rw [if_neg h2] at h
    exact absurd h h2

/-- Claim C2: the parser cascade is total by construction and returns a
list of (speaker, text) string pairs; it returns the empty list only when
the monologue fallback's bracket-stripped, whitespace-collapsed text does
not exceed the 30-character minimum. -/
theorem parse_empty_only_short_mono (raw : Str)
    (h : parse_transcript_flexible raw = []) :
    (monoOf (cleanedOf raw)).length ≤ 30 := by
  simp only [parse_transcript_flexible] at h
  by_cases h0 : pyStrip raw = []
  · unfold cleanedOf
    rw [h0]
    decide
  · rw [if_neg h0] at h
    unfold cleanedOf
    cases hs : strategy1 (cleanAfterStrip (pyStrip raw)) with
    | some d =>
      rw [hs] at h
      exact absurd h (strategy1_ne_nil hs)
    | none =>
      rw [hs] at h
      exact parseFallback_empty h

/-- Witness for C2 at a short unstructured input that yields no turns. -/
theorem parse_empty_only_short_mono_w :
    (monoOf (cleanedOf (lit "xy"))).length ≤ 30 :=
  parse_empty_only_short_mono (lit "xy") (by decide)

/-- Character is none of the smart-punctuation characters rewritten by
the cleanup pass. -/
abbrev noSmart (c : Char) : Prop :=
  c ≠ '‘' ∧ c ≠ '’' ∧ c ≠ '“' ∧ c ≠ '”' ∧ c ≠ '…'

/-- String free of smart-punctuation characters. -/
abbrev SmartFree (s : Str) : Prop := ∀ c ∈ s, noSmart c

/-- Character that survives the cleanup: not a newline and not smart
punctuation. -/
abbrev TameChar (c : Char) : Prop := c ≠ '\n' ∧ noSmart c

theorem hexDigit_tame : ∀ m, m < 16 → TameChar (hexDigit m) := by decide

theorem escCharPy_tame (q c : Char) (hq : q = '\x27' ∨ q = '"') (hc : noSmart c) :
    ∀ x ∈ escCharPy q c, TameChar x := by
  intro x hx
  unfold escCharPy at hx
  split_ifs at hx with h1 h2 h3 h4 h5 h6
  · simp at hx; subst hx; decide
  · simp at hx
    rcases hx with hx | hx <;> subst hx
    · decide
    · rcases hq with hq | hq <;> subst hq <;> decide
  · simp at hx; rcases hx with hx | hx <;> subst hx <;> decide
  · simp at hx; rcases hx with hx | hx <;> subst hx <;> decide
  · simp at hx; rcases hx with hx | hx <;> subst hx <;> decide
  · simp at hx
    have hlt : c.toNat < 128 := by omega
    rcases hx with hx | hx | hx | hx <;> subst hx
    · decide
    · decide
    · exact hexDigit_tame _ (by omega)
    · exact hexDigit_tame _ (by omega)
  · simp at hx; subst hx
    exact ⟨h3, hc⟩

theorem escBody_tame (q : Char) (hq : q = '\x27' ∨ q = '"') :
    ∀ s : Str, SmartFree s → ∀ x ∈ escBody q s, TameChar x := by
  intro s
  induction s with
  | nil => intro _ x hx; simp [escBody] at hx
  | cons c rest ih =>
    intro hs x hx
    simp only [escBody, List.mem_append] at hx
    rcases hx with hx | hx
    · exact escCharPy_tame q c hq (hs c (by simp)) x hx
    · exact ih (fun u hu => hs u (List.mem_cons_of_mem c hu)) x hx

theorem pyReprQuote_cases (s : Str) :
    pyReprQuote s = '\x27' ∨ pyReprQuote s = '"' := by
  unfold pyReprQuote
  split_ifs
  · exact Or.inr rfl
  · exact Or.inl rfl

theorem pyReprStr_tame (s : Str) (hs : SmartFree s) :
    ∀ x ∈ pyReprStr s, TameChar x := by
  intro x hx
  have hq := pyReprQuote_cases s
  have hqt : TameChar (pyReprQuote s) := by
    rcases hq with h | h <;> rw [h] <;> decide
  unfold pyReprStr at hx
  rcases List.mem_cons.mp hx with hx | hx
  · subst hx; exact hqt
  · rcases List.mem_append.mp hx with hx | hx
    · exact escBody_tame _ hq s hs x hx
    · have hx2 := List.mem_singleton.mp hx
      subst hx2; exact hqt

theorem pyReprPair_tame (p : Str × Str) (h1 : SmartFree p.1) (h2 : SmartFree p.2) :
    ∀ x ∈ pyReprPair p, TameChar x := by
  intro x hx
  unfold pyReprPair at hx
  rcases List.mem_cons.mp hx with hx | hx
  · subst hx; decide
  · rcases List.mem_append.mp hx with hx | hx
    · rcases List.mem_append.mp hx with hx | hx
      · exact pyReprStr_tame p.1 h1 x hx
      · rcases List.mem_cons.mp hx with hx | hx
        · subst hx; decide
        · rcases List.mem_cons.mp hx with hx | hx
          · subst hx; decide
          · exact pyReprStr_tame p.2 h2 x hx
    · have hx2 := List.mem_singleton.mp hx
      subst hx2; decide

theorem reprElems_tame :
    ∀ D : List (Str × Str), (∀ p ∈ D, SmartFree p.1 ∧ SmartFree p.2) →
      ∀ x ∈ reprElems D, TameChar x := by
  intro D
  induction D with
  | nil => intro _ x hx; simp [reprElems] at hx
  | cons p rest ih =>
    intro hD x hx
    have hp := hD p (by simp)
    cases rest with
    | nil =>
      simp only [reprElems] at hx
      exact pyReprPair_tame p hp.1 hp.2 x hx
    | cons q rest2 =>
      simp only [reprElems] at hx
      rcases List.mem_append.mp hx with hx | hx
      · exact pyReprPair_tame p hp.1 hp.2 x hx
      · rcases List.mem_cons.mp hx with hx | hx
        · subst hx; decide
        · rcases List.mem_cons.mp hx with hx | hx
          · subst hx; decide
          · exact ih (fun u hu => hD u (List.mem_cons_of_mem p hu)) x hx

theorem pyReprList_tame (D : List (Str × Str))
    (hD : ∀ p ∈ D, SmartFree p.1 ∧ SmartFree p.2) :
    ∀ x ∈ pyReprList D, TameChar x := by
  intro x hx
  unfold pyReprList at hx
  rcases List.mem_cons.mp hx with hx | hx
  · subst hx; decide
  · rcases List.mem_append.mp hx with hx | hx
    · exact reprElems_tame D hD x hx
    · have hx2 := List.mem_singleton.mp hx
      subst hx2; decide

theorem expandSmart_id (c : Char) (hc : noSmart c) : expandSmart c = [c] := by
  obtain ⟨n1, n2, n3, n4, n5⟩ := hc
  unfold expandSmart
  rw [if_neg (by tauto), if_neg (by tauto), if_neg n5]

theorem cleanSmart_id (s : Str) (hs : SmartFree s) : cleanSmart s = s := by
  induction s with
  | nil => rfl
  | cons c rest ih =>
    simp only [cleanSmart]
    rw [expandSmart_id c (hs c (by simp)),
      ih (fun u hu => hs u (List.mem_cons_of_mem c hu))]
    rfl

theorem splitLinesAux_nonl (s : Str) (h : ∀ x ∈ s, x ≠ '\n') :
    ∀ cur, splitLinesAux s cur = [cur.reverse ++ s] := by
  induction s with
  | nil => intro cur; simp [splitLinesAux]
  | cons c rest ih =>
    intro cur
    have hc : c ≠ '\n' := h c (by simp)
    simp only [splitLinesAux, if_neg hc]
    rw [ih (fun u hu => h u (List.mem_cons_of_mem c hu)) (c :: cur)]
    simp

theorem splitLines_nonl (s : Str) (h : ∀ x ∈ s, x ≠ '\n') : splitLines s = [s] := by
  unfold splitLines
  rw [splitLinesAux_nonl s h []]
  simp

theorem bt_no_open (rest : Str) : hasPrefixL backticks ('[' :: rest) = false := rfl

theorem bt_no_close (ys : Str) : hasPrefixL backticks.reverse (']' :: ys) = false := rfl

theorem stripLineOpen_id (rest : Str) : stripLineOpen ('[' :: rest) = '[' :: rest := by
  unfold stripLineOpen
  rw [bt_no_open]
  simp

theorem dropTrailingWs_nonws (xs : Str) (c : Char) (h : c.isWhitespace = false) :
    dropTrailingWs (xs ++ [c]) = xs ++ [c] := by
  unfold dropTrailingWs
  simp [List.dropWhile_cons, h]

theorem stripLineClose_id (xs : Str) : stripLineClose (xs ++ [']']) = xs ++ [']'] := by
  unfold stripLineClose
  rw [dropTrailingWs_nonws xs ']' (by decide)]
  have hs : hasSuffixL backticks (xs ++ [']']) = false := by
    unfold hasSuffixL
    rw [List.reverse_append]
    exact bt_no_close xs.reverse
  simp [hs]

theorem pyStrip_frame (a b : Char) (mid : Str)
    (ha : a.isWhitespace = false) (hb : b.isWhitespace = false) :
    pyStrip (a :: mid ++ [b]) = a :: mid ++ [b] := by
  show pyStrip (a :: (mid ++ [b])) = a :: mid ++ [b]
  unfold pyStrip
  rw [List.dropWhile_cons]
  simp only [ha, Bool.false_eq_true, if_false]
  rw [show (a :: (mid ++ [b]) : Str) = (a :: mid) ++ [b] by simp,
    List.reverse_append]
  simp only [List.reverse_cons, List.reverse_nil, List.nil_append,
    List.singleton_append]
  rw [List.dropWhile_cons]
  simp only [hb, Bool.false_eq_true, if_false]
  simp

theorem stripFences_frame (mid : Str) (h : ∀ x ∈ ('[' :: mid ++ [']'] : Str), x ≠ '\n') :
    stripFences ('[' :: mid ++ [']']) = '[' :: mid ++ [']'] := by
  unfold stripFences
  rw [splitLines_nonl _ h]
  simp only [List.map_cons, List.map_nil]
  rw [show ('[' :: mid ++ [']'] : Str) = '[' :: (mid ++ [']']) by simp]
  rw [stripLineOpen_id]
  rw [show ('[' :: (mid ++ [']']) : Str) = ('[' :: mid) ++ [']'] by simp]
  rw [stripLineClose_id]
  rfl

theorem cleanAfterStrip_frame (mid : Str)
    (htame : ∀ x ∈ ('[' :: mid ++ [']'] : Str), TameChar x) :
    cleanAfterStrip ('[' :: mid ++ [']']) = '[' :: mid ++ [']'] := by
  unfold cleanAfterStrip
  rw [cleanSmart_id _ (fun c hc => (htame c hc).2)]
  rw [stripFences_frame mid (fun c hc => (htame c hc).1)]
  exact pyStrip_frame '[' ']' mid (by decide) (by decide)

theorem hexVal_hexDigit : ∀ m, m < 16 → hexVal (hexDigit m) = some m := by decide

theorem escCharPy_len_pos (q c : Char) : 1 ≤ (escCharPy q c).length := by
  unfold escCharPy
  split_ifs <;> simp

theorem parseStrBodyF_escBody (q : Char) (hq : q = '\x27' ∨ q = '"') :
    ∀ (s rest : Str) (fuel : Nat), (escBody q s).length < fuel →
      parseStrBodyF fuel q (escBody q s ++ q :: rest) = some (s, rest) := by
  have hqbs : ('\\' : Char) ≠ q := by rcases hq with h | h <;> subst h <;> decide
  have hqx : q ≠ 'x' := by rcases hq with h | h <;> subst h <;> decide
  have hqu : q ≠ 'u' := by rcases hq with h | h <;> subst h <;> decide
  have hqse : simpleEsc q = some q := by rcases hq with h | h <;> subst h <;> rfl
  intro s
  induction s with
  | nil =>
    intro rest fuel hfuel
    match fuel, hfuel with
    | fuel + 1, _ =>
      simp [escBody, parseStrBodyF]
  | cons c s2 ih =>
    intro rest fuel hfuel
    match fuel, hfuel with
    | fuel + 1, hfuel =>
      have hlen : (escBody q s2).length < fuel := by
        have h1 := escCharPy_len_pos q c
        simp only [escBody, List.length_append] at hfuel
        omega
      simp only [escBody, List.append_assoc]
      unfold escCharPy
      split_ifs with h1 h2 h3 h4 h5 h6
      · subst h1
        simp [parseStrBodyF, parseEscF, simpleEsc, hqbs, ih rest fuel hlen, consCh]
      · subst h2
        simp only [List.cons_append, List.nil_append, parseStrBodyF]
        rw [if_neg hqbs]
        simp only [parseEscF, if_neg hqx, if_neg hqu, hqse, reduceIte]
        rw [ih rest fuel hlen]
        rfl
      · subst h3
        simp [parseStrBodyF, parseEscF, simpleEsc, hqbs, ih rest fuel hlen, consCh]
      · subst h4
        simp [parseStrBodyF, parseEscF, simpleEsc, hqbs, ih rest fuel hlen, consCh]
      · subst h5
        simp [parseStrBodyF, parseEscF, simpleEsc, hqbs, ih rest fuel hlen, consCh]
      · have hA : hexVal (hexDigit (c.toNat / 16)) = some (c.toNat / 16) :=
          hexVal_hexDigit _ (by omega)
        have hB : hexVal (hexDigit (c.toNat % 16)) = some (c.toNat % 16) :=
          hexVal_hexDigit _ (by omega)
        simp [parseStrBodyF, parseEscF, parseHex2, hqbs, hA, hB,
          Nat.div_add_mod, Char.ofNat_toNat, ih rest fuel hlen, consCh]
      · simp [parseStrBodyF, h1, h2, h3, ih rest fuel hlen, consCh]

theorem skipWs_cons_of_nonws (c : Char) (r : Str) (h : c.isWhitespace = false) :
    skipWs (c :: r) = c :: r := by
  simp [skipWs, List.dropWhile_cons, h]

theorem skipWs_cons_of_ws (c : Char) (r : Str) (h : c.isWhitespace = true) :
    skipWs (c :: r) = skipWs r := by
  simp [skipWs, List.dropWhile_cons, h]

theorem pyReprQuote_not_ws (s : Str) : (pyReprQuote s).isWhitespace = false := by
  rcases pyReprQuote_cases s with h | h <;> rw [h] <;> decide

theorem skipWs_reprStr (s Y : Str) :
    skipWs (pyReprStr s ++ Y) = pyReprStr s ++ Y := by
  rw [show pyReprStr s ++ Y =
    pyReprQuote s :: (escBody (pyReprQuote s) s ++ ([pyReprQuote s] ++ Y)) by
      simp [pyReprStr]]
  exact skipWs_cons_of_nonws _ _ (pyReprQuote_not_ws s)

theorem parseStrLit_repr (s rest : Str) :
    parseStrLit (pyReprStr s ++ rest) = some (s, rest) := by
  have hq := pyReprQuote_cases s
  rw [show pyReprStr s ++ rest =
    pyReprQuote s :: (escBody (pyReprQuote s) s ++ (pyReprQuote s :: rest)) by
      simp [pyReprStr]]
  simp only [parseStrLit]
  rw [if_pos hq]
  refine parseStrBodyF_escBody _ hq s rest _ ?_
  simp only [List.length_append, List.length_cons]
  omega

theorem skipWs_reprPair (p : Str × Str) (Y : Str) :
    skipWs (pyReprPair p ++ Y) = pyReprPair p ++ Y := by
  rw [show pyReprPair p ++ Y =
    '(' :: ((pyReprStr p.1 ++ ',' :: ' ' :: pyReprStr p.2) ++ ([')'] ++ Y)) by
      simp [pyReprPair]]
  exact skipWs_cons_of_nonws _ _ (by decide)

theorem parsePairEl_repr (p : Str × Str) (rest : Str) :
    parsePairEl (pyReprPair p ++ rest) = some (p, rest) := by
  rw [show pyReprPair p ++ rest =
    '(' :: (pyReprStr p.1 ++ ',' :: ' ' :: (pyReprStr p.2 ++ ')' :: rest)) by
      simp [pyReprPair]]
  simp only [parsePairEl, true_or, if_true]
  rw [show skipWs (pyReprStr p.1 ++ ',' :: ' ' :: (pyReprStr p.2 ++ ')' :: rest)) =
    pyReprStr p.1 ++ ',' :: ' ' :: (pyReprStr p.2 ++ ')' :: rest) from
      skipWs_reprStr p.1 _]
  rw [parseStrLit_repr p.1 (',' :: ' ' :: (pyReprStr p.2 ++ ')' :: rest))]
  simp only []
  rw [skipWs_cons_of_nonws ',' _ (by decide)]
  simp only []
  rw [skipWs_cons_of_ws ' ' _ (by decide)]
  rw [skipWs_reprStr p.2 (')' :: rest)]
  rw [parseStrLit_repr p.2 (')' :: rest)]
  simp only []
  rw [skipWs_cons_of_nonws ')' rest (by decide)]
  simp

/-- Serialised tail of a list `repr`: separator plus pair for each
remaining element. -/
def reprTail : List (Str × Str) → Str
  | [] => []
  | p :: ps => ',' :: ' ' :: (pyReprPair p ++ reprTail ps)

theorem reprElems_eq : ∀ (ps : List (Str × Str)) (p : Str × Str),
    reprElems (p :: ps) = pyReprPair p ++ reprTail ps := by
  intro ps
  induction ps with
  | nil => intro p; simp [reprElems, reprTail]
  | cons q ps2 ih =>
    intro p
    simp only [reprElems, reprTail]
    rw [ih q]

theorem reprTail_len : ∀ ps : List (Str × Str), ps.length ≤ (reprTail ps).length := by
  intro ps
  induction ps with
  | nil => simp [reprTail]
  | cons p ps2 ih =>
    simp only [reprTail, List.length_cons, List.length_append]
    omega

theorem parsePairsLoop_reprTail :
    ∀ (ps : List (Str × Str)) (rest : Str) (fuel : Nat), ps.length < fuel →
      parsePairsLoop fuel (reprTail ps ++ ']' :: rest) = some (ps, rest) := by
  intro ps
  induction ps with
  | nil =>
    intro rest fuel h
    match fuel, h with
    | fuel + 1, _ =>
      simp only [reprTail, List.nil_append, parsePairsLoop]
      rw [skipWs_cons_of_nonws ']' rest (by decide)]
      rfl
  | cons p ps2 ih =>
    intro rest fuel h
    match fuel, h with
    | fuel + 1, h =>
      have hlen : ps2.length < fuel := by
        simp only [List.length_cons] at h
        omega
      rw [show reprTail (p :: ps2) ++ ']' :: rest =
        ',' :: ' ' :: (pyReprPair p ++ (reprTail ps2 ++ ']' :: rest)) by
          simp [reprTail]]
      simp only [parsePairsLoop]
      rw [skipWs_cons_of_nonws ',' _ (by decide)]
      simp only []
      rw [skipWs_cons_of_ws ' ' _ (by decide)]
      rw [skipWs_reprPair p (reprTail ps2 ++ ']' :: rest)]
      show (match parsePairEl (pyReprPair p ++ (reprTail ps2 ++ ']' :: rest)) with
        | some (pp, s2) =>
          match parsePairsLoop fuel s2 with
          | some (pps, s3) => some (pp :: pps, s3)
          | none => none
        | none => none) = some (p :: ps2, rest)
      rw [parsePairEl_repr p (reprTail ps2 ++ ']' :: rest)]
      simp only []
      rw [ih rest fuel hlen]

theorem pyLiteralListParse_repr (D : List (Str × Str)) :
    pyLiteralListParse (pyReprList D) = some D := by
  cases D with
  | nil => rfl
  | cons p ps =>
    rw [show pyReprList (p :: ps) =
      '[' :: (pyReprPair p ++ (reprTail ps ++ [']'])) by
        simp [pyReprList, reprElems_eq]]
    simp only [pyLiteralListParse]
    rw [skipWs_cons_of_nonws '[' _ (by decide)]
    simp only []
    rw [show skipWs (pyReprPair p ++ (reprTail ps ++ [']'])) =
      pyReprPair p ++ (reprTail ps ++ [']']) from skipWs_reprPair p _]
    show (match parsePairEl (pyReprPair p ++ (reprTail ps ++ [']'])) with
      | some (pp, s2) =>
        match parsePairsLoop (List.length s2 + 1) s2 with
        | some (pps, s3) => if skipWs s3 = [] then some (pp :: pps) else none
        | none => none
      | none => none) = some (p :: ps)
    rw [parsePairEl_repr p (reprTail ps ++ [']'])]
    simp only []
    rw [show (reprTail ps ++ [']'] : Str) = reprTail ps ++ ']' :: [] by simp]
    rw [parsePairsLoop_reprTail ps [] _ (by
      have := reprTail_len ps
      simp only [List.length_append, List.length_cons, List.length_nil]
      omega)]
    rfl

/-- Claim C6 amended: serialising a non-empty dialogue list with Python
`str` and re-parsing returns it unchanged, provided its strings contain
no smart-punctuation characters (curly quotes, ellipsis) — those are
rewritten by the parser's cleanup pass before `literal_eval` runs, so the
round trip as originally claimed fails (see the counterexample). -/
theorem roundtrip_no_smart_chars (D : List (Str × Str)) (hne : D ≠ [])
    (hsf : ∀ p ∈ D, SmartFree p.1 ∧ SmartFree p.2) :
    parse_transcript_flexible (pyReprList D) = D := by
  have htame := pyReprList_tame D hsf
  have hstrip : pyStrip (pyReprList D) = pyReprList D := by
    show pyStrip ('[' :: reprElems D ++ [']']) = '[' :: reprElems D ++ [']']
    exact pyStrip_frame '[' ']' (reprElems D) (by decide) (by decide)
  have hclean : cleanAfterStrip (pyReprList D) = pyReprList D := by
    show cleanAfterStrip ('[' :: reprElems D ++ [']']) = '[' :: reprElems D ++ [']']
    exact cleanAfterStrip_frame (reprElems D) htame
  have hne2 : pyReprList D ≠ [] := by
    show ('[' :: reprElems D ++ [']'] : Str) ≠ []
    simp
  have hs1 : strategy1 (cleanAfterStrip (pyReprList D)) = some D := by
    rw [hclean]
    unfold strategy1
    rw [pyLiteralListParse_repr D]
    cases D with
    | nil => exact absurd rfl hne
    | cons x xs => rfl
  simp only [parse_transcript_flexible]
  rw [hstrip, if_neg hne2, hs1]

/-- Claim C6 counterexample: a dialogue text containing the curly quote
U+2019 does not survive the round trip — the cleanup pass turns it into
an ASCII quote that breaks every strategy, leaving too little for the
monologue fallback, so the parse returns the empty list. -/
theorem roundtrip_smartquote_cex :
    parse_transcript_flexible (pyReprList [(lit "Speaker 1", lit "don’t")]) = [] ∧
    [(lit "Speaker 1", lit "don’t")] ≠ ([] : List (Str × Str)) :=
  ⟨rfl, by decide⟩

/-- Witness for the amended C6 at the spec's concrete scenario list. -/
theorem roundtrip_no_smart_chars_w :
    parse_transcript_flexible (pyReprList
      [(lit "Speaker 1", lit "Hello listeners"), (lit "Speaker 2", lit "Welcome back")]) =
      [(lit "Speaker 1", lit "Hello listeners"), (lit "Speaker 2", lit "Welcome back")] :=
  roundtrip_no_smart_chars _ (by decide) (by decide)
